import Mathlib

/-!
# Verification of the pstree core (orefalo/pstree, Go)

A shallow embedding of the process-tree core of `src/main.go`:
the flat process store, `getPidIndex`, `makeTree`, `markChildren` /
`markProcs`, `dropProcs`, `getRootPID` and the recursive renderer
`printTree` with its shared depth counter.

Modelling conventions:
* Go slices of `Process` become `List Process`; Go `int` indices become
  `Int` with the sentinel `-1` exactly as in the source.
* Go strings are byte sequences; we model them as Lean `String`s whose
  characters each stand for one byte (all character sets used by the
  program are written with one char per source byte), so Go's `len` and
  slicing coincide with `String.length` / prefix-taking on chars.
* The unbounded Go loops and the recursion of `markChildren` and
  `printTree` take an explicit fuel argument; theorems either hold for
  every fuel or carry a well-formedness hypothesis under which the fuel
  chosen by the embedding is sufficient (the Go program diverges on the
  stores these hypotheses exclude).
* Fallible operations (`getRootPID`, which terminates the process when
  no root is found) return `Option`.
-/

/-- The characters used for drawing the tree (struct `TreeChars`, src/main.go). -/
structure TreeChars where
  S2   : String
  P    : String
  PGL  : String
  NPGL : String
  BarC : String
  Bar  : String
  BarL : String
  SG   : String
  EG   : String
  Init : String
deriving Repr, DecidableEq

/-- The ASCII graphics entry of the `treeChars` table (src/main.go). -/
def asciiChars : TreeChars :=
  { S2 := "--", P := "-+", PGL := "=", NPGL := "-", BarC := "|",
    Bar := "|", BarL := "\\", SG := "", EG := "", Init := "" }

/-- A single process record (struct `Process`, src/main.go).
`parent`, `child`, `sister` are indices into the flat store or `-1`. -/
structure Process where
  uid : Int := 0
  pid : Int := 0
  ppid : Int := 0
  pgid : Int := 0
  name : String := ""
  cmd : String := ""
  print : Bool := false
  parent : Int := -1
  child : Int := -1
  sister : Int := -1
  thCount : Int := 1
deriving Repr, DecidableEq, Inhabited

/-- The configuration fields consumed by the core (struct `Config` plus the
global `myPID`, src/main.go). The shared depth counter `AtLDepth` is threaded
explicitly through the renderer instead of being a global. -/
structure Cfg where
  showAll : Bool := false
  sOption : Bool := false
  uOption : Bool := false
  name : String := ""
  str : String := ""
  iPid : Int := -1
  maxLDepth : Int := 100
  columns : Int := 80
  tc : TreeChars := asciiChars
  myPid : Int := 0
deriving Repr, DecidableEq

/-- Read the record at a `Nat` position (in-range positions only arise in
the embedding; out of range yields the default record). -/
def getN (ps : List Process) (i : Nat) : Process :=
  ps.getD i default

/-- Read the record at a Go `int` index (`procs[idx]`); out-of-range access,
which panics in Go, yields the default record. -/
def getP (ps : List Process) (i : Int) : Process :=
  if 0 ≤ i then ps.getD i.toNat default else default

/-- Overwrite position `i` of the store (`procs[i] = p`); out of range is a
no-op (Go would panic). -/
def setN (ps : List Process) (i : Nat) (p : Process) : List Process :=
  ps.set i p

/-- Overwrite the record at a Go `int` index. -/
def setI (ps : List Process) (i : Int) (p : Process) : List Process :=
  if 0 ≤ i then ps.set i.toNat p else ps

/-- Set the `Print` flag of record `i` to `b` (`procs[i].Print = b`). -/
def setPrintB (ps : List Process) (i : Int) (b : Bool) : List Process :=
  setI ps i { getP ps i with print := b }

/-- Go's `%05d` verb: decimal form zero-padded to width 5 (the sign, when
present, counts toward the width and precedes the padding). -/
def fmt05 (n : Int) : String :=
  if n < 0 then
    let s := toString (-n).toNat
    "-" ++ String.mk (List.replicate (4 - s.length) '0') ++ s
  else
    let s := toString n.toNat
    String.mk (List.replicate (5 - s.length) '0') ++ s

/-- Core of `strings.Contains`: does `needle` occur as a contiguous run
inside `hay`? -/
def containsAux : List Char → List Char → Bool
  | hay, needle =>
    if needle.isPrefixOf hay then true
    else
      match hay with
      | [] => false
      | _ :: t => containsAux t needle

/-- Go's `strings.Contains s sub`. -/
def goContains (s sub : String) : Bool :=
  containsAux s.toList sub.toList

/-- Byte length of a rendered line (Go `len(out)`; one char per byte). -/
def slen (s : String) : Nat :=
  s.toList.length

/-- Go's prefix slice `s[:n]` for `0 ≤ n ≤ len(s)` (one char per byte). -/
def stake (s : String) (n : Nat) : String :=
  String.mk (s.toList.take n)

/-- The line assembled for record `idx` by `printTree`
(src/main.go lines 474-512): thread suffix, group-leader glyph, branch
glyph, parent glyph, then the `fmt.Sprintf` format string
`"%s%s%s%s%s%s %05d %s %s%s"`. -/
def renderLine (cfg : Cfg) (ps : List Process) (idx : Int) (head : String) : String :=
  let thread := if (getP ps idx).thCount > 1 then "[" ++ toString (getP ps idx).thCount ++ "]" else ""
  let pgl := if (getP ps idx).pid = (getP ps idx).pgid then cfg.tc.PGL else cfg.tc.NPGL
  let barChar :=
    if head = "" then ""
    else if (getP ps idx).sister ≠ -1 then cfg.tc.BarC
    else cfg.tc.BarL
  let pChar := if (getP ps idx).child ≠ -1 then cfg.tc.P else cfg.tc.S2
  cfg.tc.SG ++ head ++ barChar ++ pChar ++ pgl ++ cfg.tc.EG ++ " " ++
    fmt05 (getP ps idx).pid ++ " " ++ (getP ps idx).name ++ " " ++ thread ++ (getP ps idx).cmd

/-- The width bound applied before printing (src/main.go lines 514-516):
`if len(out) > config.Columns-1 { out = out[:config.Columns-1] }`. -/
def truncLine (cfg : Cfg) (out : String) : String :=
  if (slen out : Int) > cfg.columns - 1 then stake out (cfg.columns - 1).toNat else out

/-- The child prefix computed by `printTree` (src/main.go lines 520-527). -/
def nextHead (cfg : Cfg) (ps : List Process) (idx : Int) (head : String) : String :=
  if head = "" then ""
  else if (getP ps idx).sister ≠ -1 then head ++ cfg.tc.Bar ++ " "
  else head ++ "  "

mutual

/-- `printTree(idx, head)` (src/main.go lines 464-536). Returns the emitted
lines together with the value of the shared depth counter `AtLDepth` on
exit; `atL` is its value on entry. `fuel` bounds the recursion depth (the
Go recursion is unbounded). -/
def printTree (cfg : Cfg) (ps : List Process) : Nat → Int → String → Int → List String × Int
  | 0, _, _, atL => ([], atL)
  | fuel + 1, idx, head, atL =>
    if head = "" ∧ (getP ps idx).print = false then ([], atL)
    else if atL = cfg.maxLDepth then ([], atL)
    else
      let atL1 := atL + 1
      let out := truncLine cfg (renderLine cfg ps idx head)
      let nhead := nextHead cfg ps idx head
      let r := printChain cfg ps fuel (getP ps idx).child nhead atL1
      (out :: r.1, r.2 - 1)

/-- The child loop of `printTree` (src/main.go lines 529-533): walk the
sibling chain starting at `c`, rendering each subtree in turn while
threading the depth counter. -/
def printChain (cfg : Cfg) (ps : List Process) : Nat → Int → String → Int → List String × Int
  | 0, _, _, atL => ([], atL)
  | fuel + 1, c, nhead, atL =>
    if c = -1 then ([], atL)
    else
      let r1 := printTree cfg ps fuel c nhead atL
      let r2 := printChain cfg ps fuel (getP ps c).sister nhead r1.2
      (r1.1 ++ r2.1, r2.2)

end

/-- The rendering loop of `main` over a list of starting indices
(src/main.go lines 628-643): each top-level call starts with prefix `""`
and shares the depth counter. -/
def printMany (cfg : Cfg) (ps : List Process) (fuel : Nat) (idxs : List Int) (atL : Int) :
    List String × Int :=
  idxs.foldl
    (fun acc j =>
      let r := printTree cfg ps fuel j "" acc.2
      (acc.1 ++ r.1, r.2))
    ([], atL)

/-- `getPidIndex(pid)` (src/main.go lines 368-375): scan the store from the
last index backward for a record whose `PID` matches; `-1` when none does. -/
def getPidIndex (ps : List Process) (pid : Int) : Int :=
  go ps.length
where
  /-- The loop `for i := len(procs) - 1; i >= 0; i--`, written with the
  number of positions still to inspect. -/
  go : Nat → Int
    | 0 => -1
    | i + 1 => if (getN ps i).pid = pid then (i : Int) else go i

/-- The sibling-append loop of `makeTree` (src/main.go lines 386-389):
follow `Sister` links from `s` to the end of the chain. -/
def lastSib (ps : List Process) : Nat → Int → Int
  | 0, s => s
  | fuel + 1, s => if (getP ps s).sister = -1 then s else lastSib ps fuel (getP ps s).sister

/-- `procs[i].Parent = x`. -/
def setParentI (ps : List Process) (i : Nat) (x : Int) : List Process :=
  setN ps i { getN ps i with parent := x }

/-- `procs[k].Child = x`. -/
def setChildI (ps : List Process) (k : Int) (x : Int) : List Process :=
  setI ps k { getP ps k with child := x }

/-- `procs[k].Sister = x`. -/
def setSisterI (ps : List Process) (k : Int) (x : Int) : List Process :=
  setI ps k { getP ps k with sister := x }

/-- One iteration of the `makeTree` loop body for store position `i`
(src/main.go lines 379-393). -/
def makeTreeStep (ps : List Process) (i : Nat) : List Process :=
  let parentIdx := getPidIndex ps (getN ps i).ppid
  if parentIdx ≠ (i : Int) ∧ parentIdx ≠ -1 then
    let ps1 := setParentI ps i parentIdx
    if (getP ps1 parentIdx).child = -1 then
      setChildI ps1 parentIdx (i : Int)
    else
      setSisterI ps1 (lastSib ps1 (ps1.length + 1) (getP ps1 parentIdx).child) (i : Int)
  else ps

/-- `makeTree()` (src/main.go lines 378-394): resolve every record's parent
and append it to that parent's child chain in discovery order. -/
def makeTree (ps : List Process) : List Process :=
  (List.range ps.length).foldl makeTreeStep ps

mutual

/-- `markChildren(idx)` (src/main.go lines 397-404): set the `Print` flag of
`idx`, then recursively mark every record on its child chain. -/
def markChildren (ps : List Process) : Nat → Int → List Process
  | 0, _ => ps
  | fuel + 1, idx =>
    let ps1 := setPrintB ps idx true
    markChain ps1 fuel (getP ps1 idx).child

/-- The sibling loop inside `markChildren` (src/main.go lines 399-403). -/
def markChain (ps : List Process) : Nat → Int → List Process
  | 0, _ => ps
  | fuel + 1, c =>
    if c = -1 then ps
    else
      let ps1 := markChildren ps fuel c
      markChain ps1 fuel (getP ps1 c).sister

end

/-- The ancestor loop of `markProcs` (src/main.go lines 429-434): starting
from a parent index, set `Print` on every record reached by `Parent` links. -/
def markParents (ps : List Process) : Nat → Int → List Process
  | 0, _ => ps
  | fuel + 1, parent =>
    if parent = -1 then ps
    else
      let ps1 := setPrintB ps parent true
      markParents ps1 fuel (getP ps1 parent).parent

/-- The per-record selection test of `markProcs` (src/main.go lines 412-426):
a record is a base match when any active criterion accepts it. -/
def matchesCrit (cfg : Cfg) (p : Process) : Bool :=
  (cfg.name ≠ "" ∧ p.name = cfg.name) ∨
  (cfg.uOption ∧ p.name ≠ "root") ∨
  (cfg.iPid ≠ -1 ∧ p.pid = cfg.iPid) ∨
  (cfg.sOption ∧ goContains p.cmd cfg.str ∧ p.pid ≠ cfg.myPid)

/-- The fuel handed to the marking walks by the embedding; large enough for
every store whose links admit a rank function (`ChildRank`). -/
def markFuel (ps : List Process) : Nat :=
  (ps.length + 1) * (ps.length + 1)

/-- One iteration of the `markProcs` loop body for store position `i`
(src/main.go lines 408-439). -/
def markStep (cfg : Cfg) (ps : List Process) (i : Nat) : List Process :=
  if cfg.showAll then setPrintB ps (i : Int) true
  else if matchesCrit cfg (getN ps i) then
    let ps1 := markParents ps (markFuel ps) (getN ps i).parent
    markChildren ps1 (markFuel ps1) (i : Int)
  else ps

/-- `markProcs()` (src/main.go lines 407-440). -/
def markProcs (cfg : Cfg) (ps : List Process) : List Process :=
  (List.range ps.length).foldl (markStep cfg) ps

/-- The link-advancing loop of `dropProcs` (src/main.go lines 447-450 and
454-457): follow `Sister` links from `c` until the current index is `-1` or
names a record whose `Print` flag is set. -/
def firstSelected (ps : List Process) : Nat → Int → Int
  | 0, c => c
  | fuel + 1, c =>
    if c ≠ -1 ∧ (getP ps c).print = false then firstSelected ps fuel (getP ps c).sister
    else c

/-- `procs[i].Child = x` at a `Nat` position. -/
def setChildN (ps : List Process) (i : Nat) (x : Int) : List Process :=
  setN ps i { getN ps i with child := x }

/-- `procs[i].Sister = x` at a `Nat` position. -/
def setSisterN (ps : List Process) (i : Nat) (x : Int) : List Process :=
  setN ps i { getN ps i with sister := x }

/-- One iteration of the `dropProcs` loop body for store position `i`
(src/main.go lines 444-460). -/
def dropStep (ps : List Process) (i : Nat) : List Process :=
  if (getN ps i).print then
    let ps1 := setChildN ps i (firstSelected ps (ps.length + 1) (getN ps i).child)
    setSisterN ps1 i (firstSelected ps1 (ps1.length + 1) (getN ps1 i).sister)
  else ps

/-- `dropProcs()` (src/main.go lines 443-461). -/
def dropProcs (ps : List Process) : List Process :=
  (List.range ps.length).foldl dropStep ps

/-- `getRootPID()` (src/main.go lines 333-365): four sequential scans, first
match wins; `none` models the fatal `os.Exit(1)` when no scan matches. -/
def getRootPID (ps : List Process) : Option Int :=
  match ps.find? (fun p => p.pid = 1) with
  | some p => some p.pid
  | none =>
    match ps.find? (fun p => p.ppid = 0) with
    | some p => some p.pid
    | none =>
      match ps.find? (fun p => p.ppid = 1) with
      | some p => some p.pid
      | none =>
        match ps.find? (fun p => p.pid = p.ppid) with
        | some p => some p.pid
        | none => none

/-! ## Basic store lemmas -/

theorem length_setN (ps : List Process) (i : Nat) (p : Process) :
    (setN ps i p).length = ps.length := by
  simp [setN]

theorem length_setI (ps : List Process) (i : Int) (p : Process) :
    (setI ps i p).length = ps.length := by
  unfold setI
  split <;> simp

theorem length_setPrintB (ps : List Process) (i : Int) (b : Bool) :
    (setPrintB ps i b).length = ps.length := by
  simp [setPrintB, length_setI]

theorem getP_natCast (ps : List Process) (i : Nat) :
    getP ps (i : Int) = getN ps i := by
  simp [getP, getN]

theorem getN_eq_getElem (ps : List Process) (i : Nat) (h : i < ps.length) :
    getN ps i = ps[i] := by
  simp [getN, List.getD_eq_getElem?_getD, List.getElem?_eq_getElem h]

theorem getN_setN_self (ps : List Process) (i : Nat) (p : Process) (h : i < ps.length) :
    getN (setN ps i p) i = p := by
  simp [getN, setN, List.getD_eq_getElem?_getD, List.getElem?_set_self, h]

theorem getN_setN_ne (ps : List Process) (i j : Nat) (p : Process) (hne : j ≠ i) :
    getN (setN ps i p) j = getN ps j := by
  simp [getN, setN, List.getD_eq_getElem?_getD, List.getElem?_set_ne (fun h => hne h.symm)]

theorem getN_setI_ne (ps : List Process) (i : Int) (j : Nat) (p : Process)
    (hne : (j : Int) ≠ i) : getN (setI ps i p) j = getN ps j := by
  unfold setI
  split
  · next hi =>
    apply getN_setN_ne
    intro hj
    apply hne
    omega
  · rfl

theorem getN_setI_self (ps : List Process) (i : Nat) (p : Process) (h : i < ps.length) :
    getN (setI ps (i : Int) p) i = p := by
  unfold setI
  rw [if_pos (by omega)]
  simpa using getN_setN_self ps i p h

theorem getN_setPrintB_ne (ps : List Process) (i : Int) (j : Nat) (b : Bool)
    (hne : (j : Int) ≠ i) : getN (setPrintB ps i b) j = getN ps j :=
  getN_setI_ne ps i j _ hne

theorem getN_setPrintB_self (ps : List Process) (i : Nat) (b : Bool) (h : i < ps.length) :
    getN (setPrintB ps (i : Int) b) i = { getN ps i with print := b } := by
  unfold setPrintB
  rw [getP_natCast, getN_setI_self ps i _ h]

/-! ## The depth counter of the renderer -/

theorem printTree_counter (cfg : Cfg) (ps : List Process) :
    ∀ fuel : Nat,
      (∀ idx head atL, (printTree cfg ps fuel idx head atL).2 = atL) ∧
      (∀ c nhead atL, (printChain cfg ps fuel c nhead atL).2 = atL) := by
  intro fuel
  induction fuel with
  | zero =>
    constructor <;> intros <;> simp [printTree, printChain]
  | succ f ih =>
    constructor
    · intro idx head atL
      rw [printTree]
      split
      · rfl
      · split
        · rfl
        · simp only
          rw [ih.2]
          omega
    · intro c nhead atL
      rw [printChain]
      split
      · rfl
      · simp only
        rw [ih.2, ih.1]

theorem printChain_counter (cfg : Cfg) (ps : List Process) (fuel : Nat) :
    ∀ c nhead atL, (printChain cfg ps fuel c nhead atL).2 = atL :=
  (printTree_counter cfg ps fuel).2

theorem printMany_foldl_counter (cfg : Cfg) (ps : List Process) (fuel : Nat) :
    ∀ (idxs : List Int) (acc : List String × Int),
      (idxs.foldl
        (fun acc j =>
          let r := printTree cfg ps fuel j "" acc.2
          (acc.1 ++ r.1, r.2))
        acc).2 = acc.2 := by
  intro idxs
  induction idxs with
  | nil => intro acc; rfl
  | cons j t ih =>
    intro acc
    simp only [List.foldl_cons]
    rw [ih]
    exact (printTree_counter cfg ps fuel).1 j "" acc.2

/-- C10: every call `printTree(idx, head)` leaves the shared depth counter
`AtLDepth` exactly as it found it, on every exit path (the unselected-root
return, the depth-limit return, and the normal path which increments on
entry and decrements on exit); consequently the counter is `0` again after
any sequence of top-level rendering calls, so each top-level call starts
with the full configured depth budget. -/
theorem C10_depth_counter_restored :
    (∀ (cfg : Cfg) (ps : List Process) (fuel : Nat) (idx : Int) (head : String) (atL : Int),
      (printTree cfg ps fuel idx head atL).2 = atL) ∧
    (∀ (cfg : Cfg) (ps : List Process) (fuel : Nat) (idxs : List Int),
      (printMany cfg ps fuel idxs 0).2 = 0) := by
  constructor
  · intro cfg ps fuel idx head atL
    exact (printTree_counter cfg ps fuel).1 idx head atL
  · intro cfg ps fuel idxs
    exact printMany_foldl_counter cfg ps fuel idxs ([], 0)

/-! ## The depth bound -/

theorem printTree_at_limit (cfg : Cfg) (ps : List Process) (fuel : Nat) (idx : Int)
    (head : String) : (printTree cfg ps fuel idx head cfg.maxLDepth).1 = [] := by
  cases fuel with
  | zero => simp [printTree]
  | succ f =>
    rw [printTree]
    split
    · rfl
    · rw [if_pos rfl]

theorem printChain_at_limit (cfg : Cfg) (ps : List Process) :
    ∀ (fuel : Nat) (c : Int) (nhead : String),
      (printChain cfg ps fuel c nhead cfg.maxLDepth).1 = [] := by
  intro fuel
  induction fuel with
  | zero => intro c nhead; simp [printChain]
  | succ f ih =>
    intro c nhead
    rw [printChain]
    split
    · rfl
    · simp only
      rw [(printTree_counter cfg ps f).1, printTree_at_limit, ih]
      rfl

/-- C8: once the shared depth counter reaches the configured maximum level
the whole subtree is skipped silently (no line is emitted at recursion
depth `maxLDepth` or beyond), and with maximum level 1 at most the root
line of a walk is emitted, no matter how deep the tree is. -/
theorem C8_depth_bound (L : Int) (_hL : 1 ≤ L) :
    (∀ (cfg : Cfg) (ps : List Process) (fuel : Nat) (idx : Int) (head : String),
      cfg.maxLDepth = L → (printTree cfg ps fuel idx head L).1 = []) ∧
    (∀ (cfg : Cfg) (ps : List Process) (fuel : Nat) (idx : Int),
      cfg.maxLDepth = 1 →
      (printTree cfg ps (fuel + 1) idx "" 0).1 =
        if (getP ps idx).print = false then []
        else [truncLine cfg (renderLine cfg ps idx "")]) := by
  refine ⟨fun cfg ps fuel idx head hmax => ?_, fun cfg ps fuel idx hmax => ?_⟩
  · rw [← hmax]
    exact printTree_at_limit cfg ps fuel idx head
  · rw [printTree]
    by_cases hp : (getP ps idx).print = false
    · rw [if_pos ⟨rfl, hp⟩, if_pos hp]
    · rw [if_neg (fun h => hp h.2), if_neg (by rw [hmax]; norm_num), if_neg hp]
      simp only
      have hchain :
          (printChain cfg ps fuel (getP ps idx).child (nextHead cfg ps idx "") (0 + 1)).1 = [] := by
        have h1 : (0 : Int) + 1 = cfg.maxLDepth := by rw [hmax]; norm_num
        rw [h1]
        exact printChain_at_limit cfg ps fuel _ _
      rw [hchain]

/-- A five-level chain of selected records, used to exercise the depth
bound. -/
def psDeep : List Process :=
  [ { pid := 1, ppid := 0, pgid := 1, name := "root", cmd := "init", print := true, child := 1 },
    { pid := 2, ppid := 1, pgid := 2, name := "root", cmd := "a", print := true, parent := 0, child := 2 },
    { pid := 3, ppid := 2, pgid := 3, name := "root", cmd := "b", print := true, parent := 1, child := 3 },
    { pid := 4, ppid := 3, pgid := 4, name := "root", cmd := "c", print := true, parent := 2, child := 4 },
    { pid := 5, ppid := 4, pgid := 5, name := "root", cmd := "d", print := true, parent := 3 } ]

theorem C8_depth_bound_witness :
    (1 : Int) ≤ 1 ∧
    (printTree { maxLDepth := 1 } psDeep (9 + 1) 0 "" 0).1 = ["-+= 00001 root init"] :=
  ⟨by norm_num,
    ((C8_depth_bound 1 (by norm_num)).2 { maxLDepth := 1 } psDeep 9 0 rfl).trans (by decide)⟩

/-! ## Width truncation -/

theorem toList_stake (s : String) (n : Nat) : (stake s n).toList = s.toList.take n := rfl

theorem slen_stake (s : String) (n : Nat) : slen (stake s n) = min n (slen s) := by
  unfold slen
  rw [toList_stake]
  exact List.length_take n s.toList

theorem printTree_lines_shape (cfg : Cfg) (ps : List Process) :
    ∀ fuel : Nat,
      (∀ idx head atL line, line ∈ (printTree cfg ps fuel idx head atL).1 →
        ∃ j h, line = truncLine cfg (renderLine cfg ps j h)) ∧
      (∀ c nhead atL line, line ∈ (printChain cfg ps fuel c nhead atL).1 →
        ∃ j h, line = truncLine cfg (renderLine cfg ps j h)) := by
  intro fuel
  induction fuel with
  | zero =>
    constructor <;> intros _ _ _ line hline <;> simp [printTree, printChain] at hline
  | succ f ih =>
    constructor
    · intro idx head atL line hline
      rw [printTree] at hline
      split at hline
      · simp at hline
      · split at hline
        · simp at hline
        · simp only [List.mem_cons] at hline
          rcases hline with h | h
          · exact ⟨idx, head, h⟩
          · exact ih.2 _ _ _ _ h
    · intro c nhead atL line hline
      rw [printChain] at hline
      split at hline
      · simp at hline
      · simp only [List.mem_append] at hline
        rcases hline with h | h
        · exact ih.1 _ _ _ _ h
        · exact ih.2 _ _ _ _ h

/-- C9: a line longer than `columns - 1` characters is emitted as exactly
its first `columns - 1` characters (a hard slice, not word-aware), a
shorter line is emitted unchanged, with `columns = 10` a 30-character line
is cut to its first 9 characters, and every line the renderer emits is the
truncation of an assembled line. -/
theorem C9_truncation (cfg : Cfg) (hC : 1 ≤ cfg.columns) :
    (∀ s : String,
      ((slen s : Int) > cfg.columns - 1 →
        truncLine cfg s = stake s (cfg.columns - 1).toNat ∧
        (slen (truncLine cfg s) : Int) = cfg.columns - 1) ∧
      ((slen s : Int) ≤ cfg.columns - 1 → truncLine cfg s = s)) ∧
    (cfg.columns = 10 → ∀ s : String, slen s = 30 →
      truncLine cfg s = stake s 9 ∧ slen (truncLine cfg s) = 9) ∧
    (∀ (ps : List Process) (fuel : Nat) (idx : Int) (head : String) (atL : Int),
      ∀ line ∈ (printTree cfg ps fuel idx head atL).1,
        ∃ j h, line = truncLine cfg (renderLine cfg ps j h)) := by
  have hmain : ∀ s : String,
      ((slen s : Int) > cfg.columns - 1 →
        truncLine cfg s = stake s (cfg.columns - 1).toNat ∧
        (slen (truncLine cfg s) : Int) = cfg.columns - 1) ∧
      ((slen s : Int) ≤ cfg.columns - 1 → truncLine cfg s = s) := by
    intro s
    constructor
    · intro hgt
      have heq : truncLine cfg s = stake s (cfg.columns - 1).toNat := by
        rw [truncLine, if_pos hgt]
      refine ⟨heq, ?_⟩
      rw [heq, slen_stake]
      have h1 : (cfg.columns - 1).toNat ≤ slen s := by omega
      rw [min_eq_left h1]
      omega
    · intro hle
      rw [truncLine, if_neg (by omega)]
  refine ⟨hmain, fun h10 s h30 => ?_, fun ps fuel idx head atL line hline =>
    (printTree_lines_shape cfg ps fuel).1 idx head atL line hline⟩
  have hgt : (slen s : Int) > cfg.columns - 1 := by rw [h30, h10]; norm_num
  obtain ⟨heq, hlen⟩ := (hmain s).1 hgt
  have h9 : (cfg.columns - 1).toNat = 9 := by rw [h10]; decide
  constructor
  · rw [heq, h9]
  · omega

theorem C9_truncation_witness :
    (1 : Int) ≤ (Cfg.mk false false false "" "" (-1) 100 10 asciiChars 0).columns ∧
    truncLine (Cfg.mk false false false "" "" (-1) 100 10 asciiChars 0)
        "abcdefghijklmnopqrstuvwxyz0123" =
      stake "abcdefghijklmnopqrstuvwxyz0123" 9 :=
  ⟨by norm_num,
    ((C9_truncation (Cfg.mk false false false "" "" (-1) 100 10 asciiChars 0)
        (by norm_num)).2.1 rfl "abcdefghijklmnopqrstuvwxyz0123" (by decide)).1⟩

/-! ## Selection under show-all -/

theorem setN_oob (ps : List Process) (i : Nat) (p : Process) (h : ps.length ≤ i) :
    setN ps i p = ps := by
  simp [setN, List.set_eq_of_length_le h]

theorem print_setPrintB_true_mono (ps : List Process) (i j : Nat)
    (hp : (getN ps j).print = true) :
    (getN (setPrintB ps (i : Int) true) j).print = true := by
  by_cases hji : j = i
  · subst hji
    by_cases hlen : j < ps.length
    · rw [getN_setPrintB_self _ _ _ hlen]
    · unfold setPrintB setI
      rw [if_pos (by omega)]
      rw [List.set_eq_of_length_le (by omega)]
      exact hp
  · rw [getN_setPrintB_ne _ _ _ _ (by exact_mod_cast hji)]
    exact hp

theorem markStep_showAll (cfg : Cfg) (hshow : cfg.showAll = true) (ps : List Process) (i : Nat) :
    markStep cfg ps i = setPrintB ps (i : Int) true := by
  simp [markStep, hshow]

theorem foldl_markStep_showAll_mono (cfg : Cfg) (hshow : cfg.showAll = true) :
    ∀ (l : List Nat) (ps : List Process) (j : Nat),
      (getN ps j).print = true → (getN (l.foldl (markStep cfg) ps) j).print = true := by
  intro l
  induction l with
  | nil => intro ps j hp; exact hp
  | cons i t ih =>
    intro ps j hp
    simp only [List.foldl_cons]
    exact ih _ _ (by rw [markStep_showAll cfg hshow]; exact print_setPrintB_true_mono ps i j hp)

theorem foldl_markStep_showAll_sets (cfg : Cfg) (hshow : cfg.showAll = true) :
    ∀ (l : List Nat) (ps : List Process) (j : Nat), j ∈ l → j < ps.length →
      (getN (l.foldl (markStep cfg) ps) j).print = true := by
  intro l
  induction l with
  | nil => intro ps j hj; simp at hj
  | cons i t ih =>
    intro ps j hj hlen
    simp only [List.foldl_cons]
    rcases List.mem_cons.mp hj with hji | hjt
    · subst hji
      apply foldl_markStep_showAll_mono cfg hshow
      rw [markStep_showAll cfg hshow, getN_setPrintB_self _ _ _ hlen]
    · apply ih _ _ hjt
      rw [markStep_showAll cfg hshow, length_setPrintB]
      exact hlen

/-- C3: when the show-all criterion is active, `markProcs` sets the `Print`
flag of every record in the store, regardless of any other criteria. -/
theorem C3_show_all_marks_everything (cfg : Cfg) (ps : List Process)
    (hshow : cfg.showAll = true) :
    ∀ j, j < ps.length → (getN (markProcs cfg ps) j).print = true := by
  intro j hj
  unfold markProcs
  exact foldl_markStep_showAll_sets cfg hshow (List.range ps.length) ps j
    (List.mem_range.mpr hj) hj

/-- A three-record store whose records carry diverse criteria fields, used
as the show-all witness. -/
def psAll : List Process :=
  [ { pid := 1, ppid := 0, name := "root", cmd := "init" },
    { pid := 2, ppid := 1, name := "alice", cmd := "sh", parent := 0 },
    { pid := 7, ppid := 2, name := "bob", cmd := "vim", parent := 1 } ]

theorem C3_show_all_marks_everything_witness :
    ({ showAll := true, name := "alice" : Cfg}).showAll = true ∧
    (getN (markProcs { showAll := true, name := "alice" } psAll) 2).print = true :=
  ⟨rfl, C3_show_all_marks_everything { showAll := true, name := "alice" } psAll rfl 2
    (by norm_num [psAll])⟩

/-! ## Root selection -/

theorem find?_first_of_getN (p : Process → Bool) :
    ∀ (l : List Process) (i : Nat), i < l.length → p (getN l i) = true →
      (∀ j, j < i → p (getN l j) = false) → l.find? p = some (getN l i) := by
  intro l
  induction l with
  | nil => intro i hi; simp at hi
  | cons a t ih =>
    intro i hi hp hfirst
    cases i with
    | zero =>
      have ha : p a = true := by simpa [getN] using hp
      rw [List.find?_cons_of_pos _ ha]
      simp [getN]
    | succ i =>
      have ha : p a = false := by
        have := hfirst 0 (Nat.succ_pos i)
        simpa [getN] using this
      rw [List.find?_cons_of_neg _ (by simp [ha])]
      have hgt : getN (a :: t) (i + 1) = getN t i := by simp [getN]
      rw [hgt]
      apply ih i (by simpa using hi) (by rw [← hgt]; exact hp)
      intro j hj
      have := hfirst (j + 1) (by omega)
      simpa [getN] using this

theorem find?_none_of_all (p : Process → Bool) (l : List Process)
    (h : ∀ x ∈ l, p x = false) : l.find? p = none :=
  List.find?_eq_none.mpr (fun x hx => by simp [h x hx])

/-- C7: when no PID is pinned, root selection returns the pid of the first
record satisfying, in priority order, `pid = 1`, then `parentPid = 0`, then
`parentPid = 1`, then `pid = parentPid` — a `pid = 1` record beats an
earlier `parentPid = 0` record — and the fatal no-root exit (modelled as
`none`) happens exactly when no record satisfies any of the four criteria. -/
theorem C7_root_selection (ps : List Process) :
    ((∃ p ∈ ps, p.pid = 1) → getRootPID ps = some 1) ∧
    ((∀ p ∈ ps, p.pid ≠ 1) →
      ∀ i, i < ps.length → (getN ps i).ppid = 0 → (∀ j, j < i → (getN ps j).ppid ≠ 0) →
        getRootPID ps = some (getN ps i).pid) ∧
    ((∀ p ∈ ps, p.pid ≠ 1 ∧ p.ppid ≠ 0) →
      ∀ i, i < ps.length → (getN ps i).ppid = 1 → (∀ j, j < i → (getN ps j).ppid ≠ 1) →
        getRootPID ps = some (getN ps i).pid) ∧
    ((∀ p ∈ ps, p.pid ≠ 1 ∧ p.ppid ≠ 0 ∧ p.ppid ≠ 1) →
      ∀ i, i < ps.length → (getN ps i).pid = (getN ps i).ppid →
        (∀ j, j < i → (getN ps j).pid ≠ (getN ps j).ppid) →
        getRootPID ps = some (getN ps i).pid) ∧
    (getRootPID ps = none ↔
      ∀ p ∈ ps, p.pid ≠ 1 ∧ p.ppid ≠ 0 ∧ p.ppid ≠ 1 ∧ p.pid ≠ p.ppid) := by
  refine ⟨?_, ?_, ?_, ?_, ?_⟩
  · rintro ⟨p, hp, hpid⟩
    unfold getRootPID
    cases hfind : ps.find? (fun q => q.pid = 1) with
    | none =>
      exact absurd (List.find?_eq_none.mp hfind p hp) (by simp [hpid])
    | some q =>
      have hq : q.pid = 1 := by simpa using List.find?_some hfind
      simp [hq]
  · intro hno1 i hi hppid hfirst
    unfold getRootPID
    rw [find?_none_of_all _ _ (fun x hx => by simp [hno1 x hx])]
    rw [find?_first_of_getN _ ps i hi (by simp [hppid]) (fun j hj => by simp [hfirst j hj])]
  · intro hno i hi hppid hfirst
    unfold getRootPID
    rw [find?_none_of_all _ _ (fun x hx => by simp [(hno x hx).1])]
    rw [find?_none_of_all _ _ (fun x hx => by simp [(hno x hx).2])]
    rw [find?_first_of_getN _ ps i hi (by simp [hppid]) (fun j hj => by simp [hfirst j hj])]
  · intro hno i hi hpp hfirst
    unfold getRootPID
    rw [find?_none_of_all _ _ (fun x hx => by simp [(hno x hx).1])]
    rw [find?_none_of_all _ _ (fun x hx => by simp [(hno x hx).2.1])]
    rw [find?_none_of_all _ _ (fun x hx => by simp [(hno x hx).2.2])]
    rw [find?_first_of_getN _ ps i hi (by simp [hpp]) (fun j hj => by simp [hfirst j hj])]
  · constructor
    · intro hnone p hp
      unfold getRootPID at hnone
      refine ⟨?_, ?_, ?_, ?_⟩ <;> intro hbad
      · cases hfind : ps.find? (fun q => q.pid = 1) with
        | none => exact absurd (List.find?_eq_none.mp hfind p hp) (by simp [hbad])
        | some q => rw [hfind] at hnone; simp at hnone
      · cases hfind : ps.find? (fun q => q.pid = 1) with
        | none =>
          rw [hfind] at hnone
          cases hfind2 : ps.find? (fun q => q.ppid = 0) with
          | none => exact absurd (List.find?_eq_none.mp hfind2 p hp) (by simp [hbad])
          | some q => rw [hfind2] at hnone; simp at hnone
        | some q => rw [hfind] at hnone; simp at hnone
      · cases hfind : ps.find? (fun q => q.pid = 1) with
        | none =>
          rw [hfind] at hnone
          cases hfind2 : ps.find? (fun q => q.ppid = 0) with
          | none =>
            rw [hfind2] at hnone
            cases hfind3 : ps.find? (fun q => q.ppid = 1) with
            | none => exact absurd (List.find?_eq_none.mp hfind3 p hp) (by simp [hbad])
            | some q => rw [hfind3] at hnone; simp at hnone
          | some q => rw [hfind2] at hnone; simp at hnone
        | some q => rw [hfind] at hnone; simp at hnone
      · cases hfind : ps.find? (fun q => q.pid = 1) with
        | none =>
          rw [hfind] at hnone
          cases hfind2 : ps.find? (fun q => q.ppid = 0) with
          | none =>
            rw [hfind2] at hnone
            cases hfind3 : ps.find? (fun q => q.ppid = 1) with
            | none =>
              rw [hfind3] at hnone
              cases hfind4 : ps.find? (fun q => q.pid = q.ppid) with
              | none => exact absurd (List.find?_eq_none.mp hfind4 p hp) (by simp [hbad])
              | some q => rw [hfind4] at hnone; simp at hnone
            | some q => rw [hfind3] at hnone; simp at hnone
          | some q => rw [hfind2] at hnone; simp at hnone
        | some q => rw [hfind] at hnone; simp at hnone
    · intro hall
      unfold getRootPID
      rw [find?_none_of_all _ _ (fun x hx => by simp [(hall x hx).1])]
      rw [find?_none_of_all _ _ (fun x hx => by simp [(hall x hx).2.1])]
      rw [find?_none_of_all _ _ (fun x hx => by simp [(hall x hx).2.2.1])]
      rw [find?_none_of_all _ _ (fun x hx => by simp [(hall x hx).2.2.2])]

theorem C7_root_selection_witness :
    (∃ p ∈ [({ pid := 5, ppid := 0 } : Process), { pid := 1, ppid := 0 }], p.pid = 1) ∧
    getRootPID [({ pid := 5, ppid := 0 } : Process), { pid := 1, ppid := 0 }] = some 1 :=
  ⟨by decide,
    (C7_root_selection [({ pid := 5, ppid := 0 } : Process), { pid := 1, ppid := 0 }]).1
      (by decide)⟩

/-! ## Stores that agree on everything but the `Print` flags -/

/-- Two records that agree on every field except possibly `print`. -/
def sameButPrint (p q : Process) : Prop :=
  p.uid = q.uid ∧ p.pid = q.pid ∧ p.ppid = q.ppid ∧ p.pgid = q.pgid ∧
  p.name = q.name ∧ p.cmd = q.cmd ∧ p.parent = q.parent ∧ p.child = q.child ∧
  p.sister = q.sister ∧ p.thCount = q.thCount

instance (p q : Process) : Decidable (sameButPrint p q) := by
  unfold sameButPrint
  infer_instance

/-- Two stores of equal length that agree record-by-record on every field
except possibly the `Print` flags. -/
def linkEq (ps qs : List Process) : Prop :=
  ps.length = qs.length ∧ ∀ k, k < ps.length → sameButPrint (getN ps k) (getN qs k)

instance (ps qs : List Process) : Decidable (linkEq ps qs) := by
  unfold linkEq
  infer_instance

theorem sameButPrint_refl (p : Process) : sameButPrint p p := by
  unfold sameButPrint
  exact ⟨rfl, rfl, rfl, rfl, rfl, rfl, rfl, rfl, rfl, rfl⟩

theorem getP_eq_getN (ps : List Process) (k : Int) (hk : 0 ≤ k) :
    getP ps k = getN ps k.toNat := by
  simp [getP, getN, hk]

theorem getP_default_oob (ps : List Process) (k : Int)
    (h : k < 0 ∨ ps.length ≤ k.toNat) : getP ps k = default := by
  unfold getP
  rcases h with h | h
  · rw [if_neg (by omega)]
  · split
    · exact List.getD_eq_default _ _ h
    · rfl

theorem linkEq_getP (ps qs : List Process) (h : linkEq ps qs) (k : Int) :
    sameButPrint (getP ps k) (getP qs k) := by
  rcases lt_or_le k 0 with hk | hk
  · rw [getP_default_oob ps k (Or.inl hk), getP_default_oob qs k (Or.inl hk)]
    exact sameButPrint_refl _
  · rcases lt_or_le k.toNat ps.length with hlt | hge
    · rw [getP_eq_getN ps k hk, getP_eq_getN qs k hk]
      exact h.2 k.toNat hlt
    · rw [getP_default_oob ps k (Or.inr hge), getP_default_oob qs k (Or.inr (h.1 ▸ hge))]
      exact sameButPrint_refl _

theorem renderLine_linkEq (cfg : Cfg) (ps qs : List Process) (h : linkEq ps qs)
    (idx : Int) (head : String) :
    renderLine cfg ps idx head = renderLine cfg qs idx head := by
  obtain ⟨_, hpid, _, hpgid, hname, hcmd, _, hchild, hsister, hth⟩ := linkEq_getP ps qs h idx
  unfold renderLine
  rw [hpid, hpgid, hname, hcmd, hchild, hsister, hth]

theorem nextHead_linkEq (cfg : Cfg) (ps qs : List Process) (h : linkEq ps qs)
    (idx : Int) (head : String) :
    nextHead cfg ps idx head = nextHead cfg qs idx head := by
  obtain ⟨_, _, _, _, _, _, _, _, hsister, _⟩ := linkEq_getP ps qs h idx
  unfold nextHead
  rw [hsister]

theorem append_ne_empty (a s : String) (h : a ≠ "") : a ++ s ≠ "" := by
  intro hc
  apply h
  have hd := congrArg String.data hc
  rw [String.data_append] at hd
  have h1 : a.data = [] := (List.append_eq_nil.mp hd).1
  apply String.ext
  rw [h1]

theorem printTree_ignores_print_of_nonempty_head (cfg : Cfg) (ps qs : List Process)
    (h : linkEq ps qs) :
    ∀ fuel : Nat,
      (∀ idx head atL, head ≠ "" →
        printTree cfg ps fuel idx head atL = printTree cfg qs fuel idx head atL) ∧
      (∀ c nhead atL, nhead ≠ "" →
        printChain cfg ps fuel c nhead atL = printChain cfg qs fuel c nhead atL) := by
  intro fuel
  induction fuel with
  | zero => constructor <;> intros <;> simp [printTree, printChain]
  | succ f ih =>
    constructor
    · intro idx head atL hhead
      rw [printTree, printTree]
      have hps : ¬(head = "" ∧ (getP ps idx).print = false) := fun hc => hhead hc.1
      have hqs : ¬(head = "" ∧ (getP qs idx).print = false) := fun hc => hhead hc.1
      rw [if_neg hps, if_neg hqs]
      by_cases hl : atL = cfg.maxLDepth
      · rw [if_pos hl, if_pos hl]
      · rw [if_neg hl, if_neg hl]
        simp only
        have hne : nextHead cfg qs idx head ≠ "" := by
          unfold nextHead
          rw [if_neg hhead]
          split
          · exact append_ne_empty _ _ (append_ne_empty _ _ hhead)
          · exact append_ne_empty _ _ hhead
        obtain ⟨_, _, _, _, _, _, _, hchild, _, _⟩ := linkEq_getP ps qs h idx
        rw [renderLine_linkEq cfg ps qs h idx head, nextHead_linkEq cfg ps qs h idx head,
          hchild, ih.2 ((getP qs idx).child) (nextHead cfg qs idx head) (atL + 1) hne]
    · intro c nhead atL hnh
      rw [printChain, printChain]
      split
      · rfl
      · simp only
        obtain ⟨_, _, _, _, _, _, _, _, hsister, _⟩ := linkEq_getP ps qs h c
        rw [ih.1 c nhead atL hnh, hsister, ih.2 ((getP qs c).sister) nhead _ hnh]

/-! ## Claims C1 and C2: the empty-prefix filter and the child prefix -/

/-- A one-record store whose only record is unselected. -/
def psC1 : List Process := [{ pid := 9, ppid := 1, name := "u", cmd := "x" }]

/-- C1 counterexample: contrary to the claim, a walk started at a record
with an empty prefix and an unset `Print` flag emits nothing — the
starting node is subject to the selection filter, not exempt from it. -/
theorem C1_counterexample :
    (getP psC1 0).print = false ∧ (printTree ({ } : Cfg) psC1 5 0 "" 0).1 = [] := by
  decide

/-- C1 (amended): a node with an empty prefix is emitted only when its
`Print` flag is set (the early return fires exactly there), while a node
rendered with a non-empty prefix — and its whole subtree — is rendered
without consulting any `Print` flag: the rendering under a non-empty
prefix is unchanged by arbitrary changes to the selection flags. -/
theorem C1_empty_prefix_filter :
    (∀ (cfg : Cfg) (ps : List Process) (fuel : Nat) (idx atL : Int),
      (getP ps idx).print = false → (printTree cfg ps fuel idx "" atL).1 = []) ∧
    (∀ (cfg : Cfg) (ps qs : List Process) (fuel : Nat) (idx : Int) (head : String) (atL : Int),
      linkEq ps qs → head ≠ "" →
      printTree cfg ps fuel idx head atL = printTree cfg qs fuel idx head atL) := by
  constructor
  · intro cfg ps fuel idx atL hp
    cases fuel with
    | zero => simp [printTree]
    | succ f => rw [printTree, if_pos ⟨rfl, hp⟩]
  · intro cfg ps qs fuel idx head atL h hh
    exact (printTree_ignores_print_of_nonempty_head cfg ps qs h fuel).1 idx head atL hh

/-- Two-record stores differing only in the `Print` flag of record 1. -/
def psC1a : List Process :=
  [ { pid := 1, ppid := 0, pgid := 1, name := "root", cmd := "init", print := true, child := 1 },
    { pid := 2, ppid := 1, pgid := 2, name := "root", cmd := "sh", print := true, parent := 0 } ]

/-- Like `psC1a` but with record 1 unselected. -/
def psC1b : List Process :=
  [ { pid := 1, ppid := 0, pgid := 1, name := "root", cmd := "init", print := true, child := 1 },
    { pid := 2, ppid := 1, pgid := 2, name := "root", cmd := "sh", print := false, parent := 0 } ]

theorem C1_empty_prefix_filter_witness :
    linkEq psC1a psC1b ∧ ("| " : String) ≠ "" ∧
    printTree ({ } : Cfg) psC1a 4 1 "| " 1 = printTree ({ } : Cfg) psC1b 4 1 "| " 1 :=
  ⟨by decide, by decide,
    C1_empty_prefix_filter.2 { } psC1a psC1b 4 1 "| " 1 (by decide) (by decide)⟩

/-- A selected root with one selected child. -/
def psC2 : List Process :=
  [ { pid := 1, ppid := 0, pgid := 1, name := "root", cmd := "init", print := true, child := 1 },
    { pid := 2, ppid := 1, pgid := 2, name := "root", cmd := "child", print := true, parent := 0 } ]

/-- C2 evaluated at the failing input: because `printTree` passes the empty
string to the children of a node whose own prefix is empty (instead of
extending the parent's prefix), the child of the root is rendered with an
empty prefix — no leading indentation and no branch glyph — and, by
induction, so is every node of every walk started at prefix `""`. -/
theorem C2_flat_rendering :
    nextHead ({ } : Cfg) psC2 0 "" = "" ∧
    (printTree ({ } : Cfg) psC2 5 0 "" 0).1 =
      ["-+= 00001 root init", "--= 00002 root child"] := by
  decide

/-! ## Parent resolution (`getPidIndex` and `makeTree`) -/

/-- Agreement on the identity fields that `getPidIndex` and the `makeTree`
loop condition read. -/
def sameCore (p q : Process) : Prop :=
  p.pid = q.pid ∧ p.ppid = q.ppid

theorem sameCore_refl (p : Process) : sameCore p p := ⟨rfl, rfl⟩

theorem sameCore_trans {p q r : Process} (h1 : sameCore p q) (h2 : sameCore q r) :
    sameCore p r :=
  ⟨h1.1.trans h2.1, h1.2.trans h2.2⟩

theorem getN_oob (ps : List Process) (j : Nat) (h : ps.length ≤ j) : getN ps j = default :=
  List.getD_eq_default _ _ h

theorem sameCore_getN_setN (ps : List Process) (i : Nat) (p : Process)
    (hp : sameCore p (getN ps i)) (j : Nat) :
    sameCore (getN (setN ps i p) j) (getN ps j) := by
  rcases lt_or_le i ps.length with hi | hi
  · by_cases hji : j = i
    · subst hji
      rw [getN_setN_self ps j p hi]
      exact hp
    · rw [getN_setN_ne ps i j p hji]
      exact sameCore_refl _
  · rw [setN_oob ps i p hi]
    exact sameCore_refl _

theorem sameCore_getN_setI (ps : List Process) (k : Int) (p : Process)
    (hp : sameCore p (getP ps k)) (j : Nat) :
    sameCore (getN (setI ps k p) j) (getN ps j) := by
  unfold setI
  split
  · next hk =>
    rw [getP_eq_getN ps k hk] at hp
    exact sameCore_getN_setN ps k.toNat p hp j
  · exact sameCore_refl _

theorem length_setParentI (ps : List Process) (i : Nat) (x : Int) :
    (setParentI ps i x).length = ps.length := length_setN _ _ _

theorem length_setChildI (ps : List Process) (k : Int) (x : Int) :
    (setChildI ps k x).length = ps.length := length_setI _ _ _

theorem length_setSisterI (ps : List Process) (k : Int) (x : Int) :
    (setSisterI ps k x).length = ps.length := length_setI _ _ _

theorem sameCore_setParentI (ps : List Process) (i : Nat) (x : Int) (j : Nat) :
    sameCore (getN (setParentI ps i x) j) (getN ps j) := by
  unfold setParentI
  refine sameCore_getN_setN ps i _ ?_ j
  exact ⟨rfl, rfl⟩

theorem sameCore_setChildI (ps : List Process) (k : Int) (x : Int) (j : Nat) :
    sameCore (getN (setChildI ps k x) j) (getN ps j) := by
  unfold setChildI
  refine sameCore_getN_setI ps k _ ?_ j
  exact ⟨rfl, rfl⟩

theorem sameCore_setSisterI (ps : List Process) (k : Int) (x : Int) (j : Nat) :
    sameCore (getN (setSisterI ps k x) j) (getN ps j) := by
  unfold setSisterI
  refine sameCore_getN_setI ps k _ ?_ j
  exact ⟨rfl, rfl⟩

theorem parent_getN_setI_keep (ps : List Process) (k : Int) (p : Process)
    (hp : p.parent = (getP ps k).parent) (j : Nat) :
    (getN (setI ps k p) j).parent = (getN ps j).parent := by
  unfold setI
  split
  · next hk =>
    rcases lt_or_le k.toNat ps.length with hlen | hlen
    · by_cases hj : j = k.toNat
      · rw [hj, show ps.set k.toNat p = setN ps k.toNat p from rfl,
          getN_setN_self ps k.toNat p hlen, hp, getP_eq_getN ps k hk]
      · rw [show ps.set k.toNat p = setN ps k.toNat p from rfl, getN_setN_ne ps k.toNat j p hj]
    · rw [show ps.set k.toNat p = setN ps k.toNat p from rfl, setN_oob ps k.toNat p hlen]
  · rfl

theorem parent_setChildI (ps : List Process) (k : Int) (x : Int) (j : Nat) :
    (getN (setChildI ps k x) j).parent = (getN ps j).parent := by
  unfold setChildI
  refine parent_getN_setI_keep ps k _ ?_ j
  rfl

theorem parent_setSisterI (ps : List Process) (k : Int) (x : Int) (j : Nat) :
    (getN (setSisterI ps k x) j).parent = (getN ps j).parent := by
  unfold setSisterI
  refine parent_getN_setI_keep ps k _ ?_ j
  rfl

theorem parent_setParentI_self (ps : List Process) (i : Nat) (x : Int) (hi : i < ps.length) :
    (getN (setParentI ps i x) i).parent = x := by
  unfold setParentI
  rw [getN_setN_self ps i _ hi]

theorem parent_setParentI_ne (ps : List Process) (i : Nat) (x : Int) (j : Nat) (hj : j ≠ i) :
    (getN (setParentI ps i x) j).parent = (getN ps j).parent := by
  unfold setParentI
  rw [getN_setN_ne ps i j _ hj]

/-- Whether the `makeTree` loop body assigns a parent for position `i`
(the condition `parentIdx != i && parentIdx != -1`). -/
def resolvedQ (ps : List Process) (i : Nat) : Prop :=
  getPidIndex ps (getN ps i).ppid ≠ (i : Int) ∧ getPidIndex ps (getN ps i).ppid ≠ -1

instance (ps : List Process) (i : Nat) : Decidable (resolvedQ ps i) := by
  unfold resolvedQ
  infer_instance

theorem length_makeTreeStep (ps : List Process) (i : Nat) :
    (makeTreeStep ps i).length = ps.length := by
  unfold makeTreeStep
  dsimp only
  split
  · split
    · rw [length_setChildI, length_setParentI]
    · rw [length_setSisterI, length_setParentI]
  · rfl

theorem sameCore_makeTreeStep (ps : List Process) (i : Nat) (j : Nat) :
    sameCore (getN (makeTreeStep ps i) j) (getN ps j) := by
  unfold makeTreeStep
  dsimp only
  split
  · split
    · exact sameCore_trans (sameCore_setChildI _ _ _ j) (sameCore_setParentI _ _ _ j)
    · exact sameCore_trans (sameCore_setSisterI _ _ _ j) (sameCore_setParentI _ _ _ j)
  · exact sameCore_refl _

theorem parent_makeTreeStep (ps : List Process) (i : Nat) (hi : i < ps.length) (j : Nat) :
    (getN (makeTreeStep ps i) j).parent =
      if j = i ∧ resolvedQ ps i then getPidIndex ps (getN ps i).ppid
      else (getN ps j).parent := by
  unfold makeTreeStep
  dsimp only
  by_cases hq : getPidIndex ps (getN ps i).ppid ≠ (i : Int) ∧
      getPidIndex ps (getN ps i).ppid ≠ -1
  · rw [if_pos hq]
    by_cases hji : j = i
    · rw [hji]
      split
      · rw [parent_setChildI, parent_setParentI_self ps i _ hi, if_pos ⟨rfl, hq⟩]
      · rw [parent_setSisterI, parent_setParentI_self ps i _ hi, if_pos ⟨rfl, hq⟩]
    · split
      · rw [parent_setChildI, parent_setParentI_ne ps i _ j hji, if_neg (fun hc => hji hc.1)]
      · rw [parent_setSisterI, parent_setParentI_ne ps i _ j hji, if_neg (fun hc => hji hc.1)]
  · rw [if_neg hq, if_neg (fun hc => hq hc.2)]

theorem getPidIndex_go_spec (ps : List Process) (v : Int) :
    ∀ k : Nat,
      (getPidIndex.go ps v k = -1 ∧ ∀ j, j < k → (getN ps j).pid ≠ v) ∨
      (∃ r : Nat, getPidIndex.go ps v k = (r : Int) ∧ r < k ∧ (getN ps r).pid = v ∧
        ∀ j, r < j → j < k → (getN ps j).pid ≠ v) := by
  intro k
  induction k with
  | zero =>
    left
    exact ⟨rfl, fun j hj => absurd hj (Nat.not_lt_zero j)⟩
  | succ n ih =>
    by_cases hp : (getN ps n).pid = v
    · right
      refine ⟨n, ?_, Nat.lt_succ_self n, hp, fun j h1 h2 => absurd (by omega : j < n + 1) ?_⟩
      · simp [getPidIndex.go, hp]
      · omega
    · rcases ih with ⟨hnone, hall⟩ | ⟨r, hr, hrk, hrp, hall⟩
      · left
        refine ⟨?_, fun j hj => ?_⟩
        · simp only [getPidIndex.go, if_neg hp]
          exact hnone
        · rcases Nat.lt_succ_iff_lt_or_eq.mp hj with h | h
          · exact hall j h
          · rw [h]; exact hp
      · right
        refine ⟨r, ?_, by omega, hrp, fun j h1 h2 => ?_⟩
        · simp only [getPidIndex.go, if_neg hp]
          exact hr
        · rcases Nat.lt_succ_iff_lt_or_eq.mp h2 with h | h
          · exact hall j h1 h
          · rw [h]; exact hp

theorem getPidIndex_spec (ps : List Process) (v : Int) :
    (getPidIndex ps v = -1 ∧ ∀ j, j < ps.length → (getN ps j).pid ≠ v) ∨
    (∃ r : Nat, getPidIndex ps v = (r : Int) ∧ r < ps.length ∧ (getN ps r).pid = v ∧
      ∀ j, r < j → j < ps.length → (getN ps j).pid ≠ v) :=
  getPidIndex_go_spec ps v ps.length

theorem getPidIndex_go_congr (ps qs : List Process) (v : Int)
    (hpid : ∀ k, k < ps.length → (getN ps k).pid = (getN qs k).pid) :
    ∀ k, k ≤ ps.length → getPidIndex.go ps v k = getPidIndex.go qs v k := by
  intro k
  induction k with
  | zero => intro; rfl
  | succ n ih =>
    intro hk
    simp only [getPidIndex.go]
    rw [hpid n (by omega), ih (by omega)]

theorem getPidIndex_congr (ps qs : List Process) (hlen : ps.length = qs.length)
    (hpid : ∀ k, k < ps.length → (getN ps k).pid = (getN qs k).pid) (v : Int) :
    getPidIndex ps v = getPidIndex qs v := by
  unfold getPidIndex
  rw [← hlen]
  exact getPidIndex_go_congr ps qs v hpid ps.length le_rfl

theorem foldl_makeTreeStep_spec (l : List Nat) :
    ∀ ps : List Process, (∀ x ∈ l, x < ps.length) →
      ((l.foldl makeTreeStep ps).length = ps.length) ∧
      (∀ j, sameCore (getN (l.foldl makeTreeStep ps) j) (getN ps j)) ∧
      (∀ j : Nat, (getN (l.foldl makeTreeStep ps) j).parent =
        if j ∈ l ∧ resolvedQ ps j then getPidIndex ps (getN ps j).ppid
        else (getN ps j).parent) := by
  induction l with
  | nil =>
    intro ps _
    refine ⟨by simp, fun j => by simp only [List.foldl_nil]; exact sameCore_refl _, fun j => ?_⟩
    simp only [List.foldl_nil]
    rw [if_neg (fun hc => by simp at hc)]
  | cons i t ih =>
    intro ps hbound
    have hi : i < ps.length := hbound i (List.mem_cons_self i t)
    have hlen1 : (makeTreeStep ps i).length = ps.length := length_makeTreeStep ps i
    have hboundt : ∀ x ∈ t, x < (makeTreeStep ps i).length := by
      intro x hx
      rw [hlen1]
      exact hbound x (List.mem_cons_of_mem i hx)
    obtain ⟨ihlen, ihcore, ihparent⟩ := ih (makeTreeStep ps i) hboundt
    have hcore1 : ∀ j, sameCore (getN (makeTreeStep ps i) j) (getN ps j) :=
      sameCore_makeTreeStep ps i
    have hpidx : ∀ w, getPidIndex (makeTreeStep ps i) w = getPidIndex ps w :=
      fun w => getPidIndex_congr _ _ (by rw [hlen1]) (fun k _ => (hcore1 k).1) w
    have hppid : ∀ j, (getN (makeTreeStep ps i) j).ppid = (getN ps j).ppid :=
      fun j => (hcore1 j).2
    have hresq : ∀ j, resolvedQ (makeTreeStep ps i) j ↔ resolvedQ ps j := by
      intro j
      unfold resolvedQ
      rw [hppid j, hpidx _]
    simp only [List.foldl_cons]
    refine ⟨ihlen.trans hlen1, fun j => sameCore_trans (ihcore j) (hcore1 j), fun j => ?_⟩
    rw [ihparent j]
    by_cases hjt : j ∈ t
    · by_cases hrq : resolvedQ ps j
      · rw [if_pos (⟨hjt, (hresq j).mpr hrq⟩ : j ∈ t ∧ resolvedQ (makeTreeStep ps i) j),
          hpidx, hppid,
          if_pos (⟨List.mem_cons_of_mem i hjt, hrq⟩ : j ∈ i :: t ∧ resolvedQ ps j)]
      · rw [if_neg (fun hc : j ∈ t ∧ resolvedQ (makeTreeStep ps i) j =>
            hrq ((hresq j).mp hc.2)),
          parent_makeTreeStep ps i hi j,
          if_neg (fun hc : j = i ∧ resolvedQ ps i => hrq (hc.1.symm ▸ hc.2)),
          if_neg (fun hc : j ∈ i :: t ∧ resolvedQ ps j => hrq hc.2)]
    · rw [if_neg (fun hc : j ∈ t ∧ resolvedQ (makeTreeStep ps i) j => hjt hc.1),
        parent_makeTreeStep ps i hi j]
      by_cases hji : j = i
      · by_cases hrq : resolvedQ ps i
        · rw [if_pos (⟨hji, hrq⟩ : j = i ∧ resolvedQ ps i),
            if_pos (⟨List.mem_cons.mpr (Or.inl hji), hji.symm ▸ hrq⟩ :
              j ∈ i :: t ∧ resolvedQ ps j),
            hji]
        · rw [if_neg (fun hc : j = i ∧ resolvedQ ps i => hrq hc.2),
            if_neg (fun hc : j ∈ i :: t ∧ resolvedQ ps j => hrq (hji ▸ hc.2))]
      · rw [if_neg (fun hc : j = i ∧ resolvedQ ps i => hji hc.1),
          if_neg (fun hc : j ∈ i :: t ∧ resolvedQ ps j => by
            rcases List.mem_cons.mp hc.1 with h | h
            · exact hji h
            · exact hjt h)]

/-- Links as initialised by the enumerator (`proc.Parent = -1; proc.Child = -1;
proc.Sister = -1`, src/main.go lines 180-182). -/
def InitLinks (ps : List Process) : Prop :=
  ∀ i, i < ps.length →
    (getN ps i).parent = -1 ∧ (getN ps i).child = -1 ∧ (getN ps i).sister = -1

instance (ps : List Process) : Decidable (InitLinks ps) := by
  unfold InitLinks
  infer_instance

/-- C5: `makeTree` resolves each record's parent by scanning the store from
the highest index downward for a record whose pid equals the child's
parentPid (`getPidIndex` returns the greatest matching index, or -1); when
that scan yields the child itself or no match, the child's parentIndex
stays -1; and when two records share a pid, a child whose parentPid equals
that value attaches to the higher-index one. -/
theorem C5_parent_resolution (ps : List Process) (hinit : InitLinks ps) :
    (∀ v : Int,
      (getPidIndex ps v = -1 ∧ ∀ j, j < ps.length → (getN ps j).pid ≠ v) ∨
      (∃ r : Nat, getPidIndex ps v = (r : Int) ∧ r < ps.length ∧ (getN ps r).pid = v ∧
        ∀ j, r < j → j < ps.length → (getN ps j).pid ≠ v)) ∧
    (∀ i, i < ps.length →
      (getN (makeTree ps) i).parent =
        if getPidIndex ps (getN ps i).ppid = (i : Int) ∨ getPidIndex ps (getN ps i).ppid = -1
        then -1 else getPidIndex ps (getN ps i).ppid) ∧
    (∀ j k i : Nat, j < k → k < ps.length → i < ps.length →
      (getN ps j).pid = (getN ps k).pid →
      (∀ l, l < ps.length → k < l → (getN ps l).pid ≠ (getN ps k).pid) →
      (getN ps i).ppid = (getN ps k).pid → (k : Int) ≠ (i : Int) →
      (getN (makeTree ps) i).parent = (k : Int)) := by
  have hmain : ∀ i, i < ps.length →
      (getN (makeTree ps) i).parent =
        if getPidIndex ps (getN ps i).ppid = (i : Int) ∨ getPidIndex ps (getN ps i).ppid = -1
        then -1 else getPidIndex ps (getN ps i).ppid := by
    intro i hi
    unfold makeTree
    obtain ⟨_, _, hparent⟩ :=
      foldl_makeTreeStep_spec (List.range ps.length) ps (fun x hx => List.mem_range.mp hx)
    rw [hparent i]
    by_cases hm : getPidIndex ps (getN ps i).ppid = (i : Int) ∨
        getPidIndex ps (getN ps i).ppid = -1
    · rw [if_pos hm,
        if_neg (fun hc : _ ∈ _ ∧ resolvedQ ps i =>
          (by rcases hm with h | h; exacts [hc.2.1 h, hc.2.2 h] : False))]
      exact (hinit i hi).1
    · push_neg at hm
      rw [if_neg (fun hno : _ = _ ∨ _ = _ => by
          rcases hno with h | h; exacts [hm.1 h, hm.2 h]),
        if_pos ⟨List.mem_range.mpr hi, hm.1, hm.2⟩]
  refine ⟨getPidIndex_spec ps, hmain, ?_⟩
  intro j k i hjk hk hi hshare hlast hppid hki
  have hgp : getPidIndex ps (getN ps i).ppid = (k : Int) := by
    rw [hppid]
    rcases getPidIndex_spec ps ((getN ps k).pid) with ⟨_, hnone⟩ | ⟨r, hr, hrlen, hrpid, hall⟩
    · exact absurd rfl (hnone k hk)
    · have hrk : r = k := by
        rcases lt_trichotomy r k with h | h | h
        · exact absurd rfl (hall k h hk)
        · exact h
        · exact absurd hrpid (hlast r hrlen h)
      rw [hr, hrk]
  rw [hmain i hi, hgp,
    if_neg (fun hc : _ ∨ _ => by
      rcases hc with h | h
      · exact hki h
      · exact absurd h (by omega))]

/-- A store with a duplicated pid 7 (positions 0 and 1); record 2 names 7
as its parent pid. -/
def psDup : List Process :=
  [ { pid := 7, ppid := 0, name := "a", cmd := "a" },
    { pid := 7, ppid := 0, name := "b", cmd := "b" },
    { pid := 5, ppid := 7, name := "c", cmd := "c" } ]

theorem C5_parent_resolution_witness :
    InitLinks psDup ∧ (getN (makeTree psDup) 2).parent = (1 : Int) :=
  ⟨by decide,
    (C5_parent_resolution psDup (by decide)).2.2 0 1 2 (by decide) (by decide) (by decide)
      (by decide) (by decide) (by decide) (by decide)⟩

/-! ## Pruning (`dropProcs`) -/

/-- The advance of a link along a sibling chain, as `dropProcs` performs it:
skip records whose `Print` flag is unset, stop at the sentinel or at the
first selected record. -/
inductive FirstSel (ps : List Process) : Int → Int → Prop
  | none : FirstSel ps (-1) (-1)
  | found (c : Int) : c ≠ -1 → (getP ps c).print = true → FirstSel ps c c
  | skip (c r : Int) : c ≠ -1 → (getP ps c).print = false →
      FirstSel ps ((getP ps c).sister) r → FirstSel ps c r

/-- Sister links only point forward (to strictly larger store positions),
as `makeTree` produces them; the Go sibling loops terminate exactly on such
stores. -/
def SisterIncr (ps : List Process) : Prop :=
  ∀ i, i < ps.length → (getN ps i).sister = -1 ∨
    ((i : Int) < (getN ps i).sister ∧ (getN ps i).sister < (ps.length : Int))

instance (ps : List Process) : Decidable (SisterIncr ps) := by
  unfold SisterIncr
  infer_instance

/-- Child links are store positions or the sentinel. -/
def ChildValid (ps : List Process) : Prop :=
  ∀ i, i < ps.length → (getN ps i).child = -1 ∨
    (0 ≤ (getN ps i).child ∧ (getN ps i).child < (ps.length : Int))

instance (ps : List Process) : Decidable (ChildValid ps) := by
  unfold ChildValid
  infer_instance

/-- Agreement on every field except the two structural links that
`dropProcs` rewrites. -/
def sameButLinks (p q : Process) : Prop :=
  p.uid = q.uid ∧ p.pid = q.pid ∧ p.ppid = q.ppid ∧ p.pgid = q.pgid ∧
  p.name = q.name ∧ p.cmd = q.cmd ∧ p.print = q.print ∧ p.parent = q.parent ∧
  p.thCount = q.thCount

theorem sameButLinks_refl (p : Process) : sameButLinks p p :=
  ⟨rfl, rfl, rfl, rfl, rfl, rfl, rfl, rfl, rfl⟩

theorem sameButLinks_trans {p q r : Process} (h1 : sameButLinks p q) (h2 : sameButLinks q r) :
    sameButLinks p r :=
  ⟨h1.1.trans h2.1, h1.2.1.trans h2.2.1, h1.2.2.1.trans h2.2.2.1,
   h1.2.2.2.1.trans h2.2.2.2.1, h1.2.2.2.2.1.trans h2.2.2.2.2.1,
   h1.2.2.2.2.2.1.trans h2.2.2.2.2.2.1, h1.2.2.2.2.2.2.1.trans h2.2.2.2.2.2.2.1,
   h1.2.2.2.2.2.2.2.1.trans h2.2.2.2.2.2.2.2.1, h1.2.2.2.2.2.2.2.2.trans h2.2.2.2.2.2.2.2.2⟩

theorem firstSelected_neg1 (ps : List Process) : ∀ fuel, firstSelected ps fuel (-1) = -1 := by
  intro fuel
  cases fuel with
  | zero => rfl
  | succ f => rw [firstSelected, if_neg (fun hc => hc.1 rfl)]

/-- The realisation lemma for the link-advancing loop: on a store with
forward sister links, the fuelled walk satisfies the `FirstSel` relation. -/
theorem firstSelected_realises (ps : List Process) (hs : SisterIncr ps) :
    ∀ (fuel : Nat) (c : Int),
      (c = -1 ∨ (0 ≤ c ∧ c.toNat < ps.length)) →
      (c = -1 ∨ ps.length ≤ fuel + c.toNat) →
      FirstSel ps c (firstSelected ps fuel c) := by
  intro fuel
  induction fuel with
  | zero =>
    intro c hok hfuel
    rcases hok with hc | ⟨hge, hlt⟩
    · rw [hc]
      exact FirstSel.none
    · rcases hfuel with hc | hf
      · rw [hc]
        exact FirstSel.none
      · omega
  | succ f ih =>
    intro c hok hfuel
    rcases hok with hc | ⟨hge, hlt⟩
    · rw [hc]
      exact FirstSel.none
    · have hcne : c ≠ -1 := by omega
      by_cases hp : (getP ps c).print = false
      · rw [firstSelected, if_pos ⟨hcne, hp⟩]
        have hsis := hs c.toNat hlt
        rw [← getP_eq_getN ps c hge] at hsis
        rcases hsis with hnone | ⟨hgt, hltn⟩
        · refine FirstSel.skip c _ hcne hp ?_
          rw [hnone, firstSelected_neg1]
          exact FirstSel.none
        · refine FirstSel.skip c _ hcne hp ?_
          apply ih
          · right
            constructor
            · omega
            · omega
          · right
            rcases hfuel with hc | hf
            · exact absurd hc hcne
            · omega
      · rw [firstSelected, if_neg (fun hcond => hp hcond.2)]
        have hpt : (getP ps c).print = true := by
          simpa using hp
        exact FirstSel.found c hcne hpt

theorem firstSelected_congr (ps qs : List Process) (hlen : ps.length = qs.length)
    (hpr : ∀ j, j < ps.length → (getN qs j).print = (getN ps j).print)
    (hun : ∀ j, j < ps.length → (getN ps j).print = false →
      (getN qs j).sister = (getN ps j).sister) :
    ∀ (fuel : Nat) (c : Int), firstSelected qs fuel c = firstSelected ps fuel c := by
  have hgp : ∀ c : Int, (getP qs c).print = (getP ps c).print := by
    intro c
    rcases lt_or_le c 0 with hc | hc
    · rw [getP_default_oob ps c (Or.inl hc), getP_default_oob qs c (Or.inl hc)]
    · rcases lt_or_le c.toNat ps.length with hlt | hge
      · rw [getP_eq_getN ps c hc, getP_eq_getN qs c hc]
        exact hpr c.toNat hlt
      · rw [getP_default_oob ps c (Or.inr hge), getP_default_oob qs c (Or.inr (hlen ▸ hge))]
  have hgs : ∀ c : Int, (getP ps c).print = false →
      (getP qs c).sister = (getP ps c).sister := by
    intro c hpf
    rcases lt_or_le c 0 with hc | hc
    · rw [getP_default_oob ps c (Or.inl hc), getP_default_oob qs c (Or.inl hc)]
    · rcases lt_or_le c.toNat ps.length with hlt | hge
      · rw [getP_eq_getN ps c hc, getP_eq_getN qs c hc]
        exact hun c.toNat hlt (by rw [← getP_eq_getN ps c hc]; exact hpf)
      · rw [getP_default_oob ps c (Or.inr hge), getP_default_oob qs c (Or.inr (hlen ▸ hge))]
  intro fuel
  induction fuel with
  | zero => intro c; rfl
  | succ f ih =>
    intro c
    rw [firstSelected, firstSelected]
    by_cases hcond : c ≠ -1 ∧ (getP ps c).print = false
    · rw [if_pos hcond, if_pos ⟨hcond.1, by rw [hgp c]; exact hcond.2⟩,
        hgs c hcond.2, ih]
    · rw [if_neg hcond, if_neg (fun hcq => hcond ⟨hcq.1, by rw [← hgp c]; exact hcq.2⟩)]

theorem length_setChildN (ps : List Process) (i : Nat) (x : Int) :
    (setChildN ps i x).length = ps.length := length_setN _ _ _

theorem length_setSisterN (ps : List Process) (i : Nat) (x : Int) :
    (setSisterN ps i x).length = ps.length := length_setN _ _ _

theorem length_dropStep (ps : List Process) (i : Nat) :
    (dropStep ps i).length = ps.length := by
  unfold dropStep
  dsimp only
  split
  · rw [length_setSisterN, length_setChildN]
  · rfl

theorem getN_setChildN_ne (ps : List Process) (i j : Nat) (x : Int) (hj : j ≠ i) :
    getN (setChildN ps i x) j = getN ps j := by
  unfold setChildN
  rw [getN_setN_ne ps i j _ hj]

theorem getN_setSisterN_ne (ps : List Process) (i j : Nat) (x : Int) (hj : j ≠ i) :
    getN (setSisterN ps i x) j = getN ps j := by
  unfold setSisterN
  rw [getN_setN_ne ps i j _ hj]

theorem getN_setChildN_self (ps : List Process) (i : Nat) (x : Int) (hi : i < ps.length) :
    getN (setChildN ps i x) i = { getN ps i with child := x } := by
  unfold setChildN
  rw [getN_setN_self ps i _ hi]

theorem getN_setSisterN_self (ps : List Process) (i : Nat) (x : Int) (hi : i < ps.length) :
    getN (setSisterN ps i x) i = { getN ps i with sister := x } := by
  unfold setSisterN
  rw [getN_setN_self ps i _ hi]

theorem dropStep_not_print (ps : List Process) (i : Nat)
    (hp : (getN ps i).print = false) : dropStep ps i = ps := by
  unfold dropStep
  rw [hp]
  rfl

theorem dropStep_ne (ps : List Process) (i j : Nat) (hj : j ≠ i) :
    getN (dropStep ps i) j = getN ps j := by
  unfold dropStep
  dsimp only
  split
  · rw [getN_setSisterN_ne _ _ _ _ hj, getN_setChildN_ne _ _ _ _ hj]
  · rfl

theorem dropStep_self (ps : List Process) (i : Nat) (hi : i < ps.length)
    (hp : (getN ps i).print = true) :
    getN (dropStep ps i) i =
      { getN ps i with
        child := firstSelected ps (ps.length + 1) ((getN ps i).child),
        sister := firstSelected ps (ps.length + 1) ((getN ps i).sister) } := by
  unfold dropStep
  rw [hp]
  simp only [if_true]
  have hi1 : i < (setChildN ps i (firstSelected ps (ps.length + 1) (getN ps i).child)).length := by
    rw [length_setChildN]
    exact hi
  rw [getN_setSisterN_self _ _ _ hi1, getN_setChildN_self _ _ _ hi]
  have hcongr : ∀ c, firstSelected
      (setChildN ps i (firstSelected ps (ps.length + 1) (getN ps i).child))
      ((setChildN ps i (firstSelected ps (ps.length + 1) (getN ps i).child)).length + 1) c =
      firstSelected ps (ps.length + 1) c := by
    intro c
    rw [length_setChildN]
    apply firstSelected_congr
    · rw [length_setChildN]
    · intro j hj
      by_cases hji : j = i
      · rw [hji, getN_setChildN_self ps i _ hi]
      · rw [getN_setChildN_ne ps i j _ hji]
    · intro j hj _
      by_cases hji : j = i
      · rw [hji, getN_setChildN_self ps i _ hi]
      · rw [getN_setChildN_ne ps i j _ hji]
  rw [hcongr]

theorem print_dropStep (ps : List Process) (i : Nat) (j : Nat) (hj : j < ps.length) :
    (getN (dropStep ps i) j).print = (getN ps j).print := by
  by_cases hji : j = i
  · rcases Bool.eq_false_or_eq_true (getN ps i).print with hp | hp
    · rw [hji, dropStep_self ps i (hji ▸ hj) hp]
    · rw [hji, dropStep_not_print ps i hp]
  · rw [dropStep_ne ps i j hji]

theorem unselected_dropStep (ps : List Process) (i : Nat) (j : Nat)
    (hp : (getN ps j).print = false) : getN (dropStep ps i) j = getN ps j := by
  by_cases hji : j = i
  · rw [hji, dropStep_not_print ps i (hji ▸ hp)]
  · rw [dropStep_ne ps i j hji]

theorem firstSelected_dropStep (ps : List Process) (i : Nat) (c : Int) :
    firstSelected (dropStep ps i) ((dropStep ps i).length + 1) c =
      firstSelected ps (ps.length + 1) c := by
  rw [length_dropStep]
  apply firstSelected_congr
  · rw [length_dropStep]
  · intro j hj
    exact print_dropStep ps i j hj
  · intro j hj hp
    rw [unselected_dropStep ps i j hp]

theorem foldl_dropStep_spec (l : List Nat) :
    ∀ ps : List Process, l.Nodup → (∀ x ∈ l, x < ps.length) →
      ((l.foldl dropStep ps).length = ps.length) ∧
      (∀ j, j < ps.length →
        (getN (l.foldl dropStep ps) j).print = (getN ps j).print) ∧
      (∀ j, j < ps.length → j ∉ l → getN (l.foldl dropStep ps) j = getN ps j) ∧
      (∀ j, j < ps.length → (getN ps j).print = false →
        getN (l.foldl dropStep ps) j = getN ps j) ∧
      (∀ j ∈ l, j < ps.length → (getN ps j).print = true →
        getN (l.foldl dropStep ps) j =
          { getN ps j with
            child := firstSelected ps (ps.length + 1) ((getN ps j).child),
            sister := firstSelected ps (ps.length + 1) ((getN ps j).sister) }) := by
  induction l with
  | nil =>
    intro ps _ _
    exact ⟨rfl, fun j _ => rfl, fun j _ _ => rfl, fun j _ _ => rfl,
      fun j hj => absurd hj (List.not_mem_nil j)⟩
  | cons i t ih =>
    intro ps hnd hbound
    have hi : i < ps.length := hbound i (List.mem_cons_self i t)
    have hint : i ∉ t := (List.nodup_cons.mp hnd).1
    have hlen1 : (dropStep ps i).length = ps.length := length_dropStep ps i
    obtain ⟨ihA, ihB, ihC, ihD, ihE⟩ :=
      ih (dropStep ps i) (List.nodup_cons.mp hnd).2
        (fun x hx => by rw [hlen1]; exact hbound x (List.mem_cons_of_mem i hx))
    simp only [List.foldl_cons]
    refine ⟨ihA.trans hlen1, fun j hj => ?_, fun j hj hjl => ?_, fun j hj hp => ?_,
      fun j hjl hj hp => ?_⟩
    · exact ((ihB j (by rw [hlen1]; exact hj)).trans (print_dropStep ps i j hj))
    · have hjt : j ∉ t := fun h => hjl (List.mem_cons_of_mem i h)
      have hji : j ≠ i := fun h => hjl (h ▸ List.mem_cons_self i t)
      rw [ihC j (by rw [hlen1]; exact hj) hjt, dropStep_ne ps i j hji]
    · rw [ihD j (by rw [hlen1]; exact hj)
        (by rw [print_dropStep ps i j hj]; exact hp), unselected_dropStep ps i j hp]
    · rcases List.mem_cons.mp hjl with hji | hjt
      · rw [hji] at hp ⊢
        rw [ihC i (by rw [hlen1]; exact hi) hint, dropStep_self ps i hi hp]
      · have hji : j ≠ i := fun h => hint (h ▸ hjt)
        rw [ihE j hjt (by rw [hlen1]; exact hj)
            (by rw [print_dropStep ps i j hj]; exact hp),
          dropStep_ne ps i j hji, firstSelected_dropStep ps i, firstSelected_dropStep ps i]

/-- C4: after `dropProcs`, every selected record's `Child` link has been
advanced along its original child's sibling chain to the first selected
record (or `-1` when none exists), its `Sister` link has been advanced the
same way, its other fields are untouched, and every unselected record is
left entirely unchanged; the advanced link is always `-1` or a selected
index. -/
theorem C4_prune (ps : List Process) (hs : SisterIncr ps) (hc : ChildValid ps) :
    (∀ j, j < ps.length → (getN ps j).print = false →
      getN (dropProcs ps) j = getN ps j) ∧
    (∀ j, j < ps.length → (getN ps j).print = true →
      sameButLinks (getN (dropProcs ps) j) (getN ps j) ∧
      FirstSel ps ((getN ps j).child) ((getN (dropProcs ps) j).child) ∧
      FirstSel ps ((getN ps j).sister) ((getN (dropProcs ps) j).sister)) ∧
    (∀ c r : Int, FirstSel ps c r → r = -1 ∨ (getP ps r).print = true) := by
  obtain ⟨hA, hB, hC, hD, hE⟩ :=
    foldl_dropStep_spec (List.range ps.length) ps (List.nodup_range ps.length)
      (fun x hx => List.mem_range.mp hx)
  refine ⟨fun j hj hp => hD j hj hp, fun j hj hp => ?_, fun c r hfs => ?_⟩
  · have heq := hE j (List.mem_range.mpr hj) hj hp
    unfold dropProcs
    rw [heq]
    refine ⟨⟨rfl, rfl, rfl, rfl, rfl, rfl, rfl, rfl, rfl⟩, ?_, ?_⟩
    · apply firstSelected_realises ps hs
      · rcases hc j hj with hnone | ⟨hge, hlt⟩
        · exact Or.inl hnone
        · exact Or.inr ⟨hge, by omega⟩
      · rcases hc j hj with hnone | ⟨hge, hlt⟩
        · exact Or.inl hnone
        · exact Or.inr (by omega)
    · apply firstSelected_realises ps hs
      · rcases hs j hj with hnone | ⟨hgt, hlt⟩
        · exact Or.inl hnone
        · exact Or.inr ⟨by omega, by omega⟩
      · rcases hs j hj with hnone | ⟨hgt, hlt⟩
        · exact Or.inl hnone
        · exact Or.inr (by omega)
  · induction hfs with
    | none => exact Or.inl rfl
    | found c hne hp => exact Or.inr hp
    | skip c r hne hp _ ihr => exact ihr

/-- A selected root (0) whose child chain 1 → 2 → 3 starts with an
unselected record. -/
def psPrune : List Process :=
  [ { pid := 1, ppid := 0, name := "r", cmd := "r", print := true, child := 1 },
    { pid := 2, ppid := 1, name := "a", cmd := "a", print := false, parent := 0, sister := 2 },
    { pid := 3, ppid := 1, name := "b", cmd := "b", print := true, parent := 0, sister := 3 },
    { pid := 4, ppid := 1, name := "c", cmd := "c", print := true, parent := 0 } ]

theorem C4_prune_witness :
    SisterIncr psPrune ∧ ChildValid psPrune ∧ (getN psPrune 0).print = true ∧
    FirstSel psPrune ((getN psPrune 0).child) ((getN (dropProcs psPrune) 0).child) :=
  ⟨by decide, by decide, by decide,
    ((C4_prune psPrune (by decide) (by decide)).2.1 0 (by decide) (by decide)).2.1⟩

/-! ## Selection propagation (`markProcs`) -/

/-- Reachability along one of the store's link fields: the set
`{c, f c, f (f c), …}` cut off at the sentinel. -/
inductive LinkChain (f : Int → Int) : Int → Int → Prop
  | head (c : Int) : c ≠ -1 → LinkChain f c c
  | tail (c j : Int) : LinkChain f c j → f j ≠ -1 → LinkChain f c (f j)

/-- The sister link as a function. -/
def sisterF (ps : List Process) : Int → Int := fun j => (getP ps j).sister

/-- The parent link as a function. -/
def parentF (ps : List Process) : Int → Int := fun j => (getP ps j).parent

/-- The first-child link as a function. -/
def childF (ps : List Process) : Int → Int := fun j => (getP ps j).child

/-- Membership of `j` in the sibling chain starting at `c`. -/
def InChain (ps : List Process) : Int → Int → Prop := LinkChain (sisterF ps)

/-- Membership of `j` in the ancestor walk starting at `p` (inclusive). -/
def PUp (ps : List Process) : Int → Int → Prop := LinkChain (parentF ps)

/-- `j` is a strict descendant of `m` through the child/sister chains. -/
inductive DescOf (ps : List Process) : Int → Int → Prop
  | base (m j : Int) : InChain ps (childF ps m) j → DescOf ps m j
  | step (m k j : Int) : DescOf ps m k → InChain ps (childF ps k) j → DescOf ps m j

theorem linkChain_neg1 (f : Int → Int) (j : Int) : ¬ LinkChain f (-1) j := by
  intro h
  generalize hc : (-1 : Int) = c at h
  induction h with
  | head hne => exact hne hc.symm
  | tail j hcj hne ih => exact ih

theorem linkChain_extend (f : Int → Int) {c s j : Int}
    (h1 : LinkChain f c s) (h2 : LinkChain f s j) : LinkChain f c j := by
  induction h2 with
  | head _ => exact h1
  | tail j hsj hne ih => exact LinkChain.tail _ _ ih hne

theorem linkChain_cons (f : Int → Int) (c : Int) (hc : c ≠ -1) (j : Int) :
    LinkChain f c j ↔ j = c ∨ (f c ≠ -1 ∧ LinkChain f (f c) j) := by
  constructor
  · intro h
    induction h with
    | head _ => exact Or.inl rfl
    | tail j' hcj hne ih =>
      rcases ih with hj | ⟨hfc, hchain⟩
      · right
        rw [hj] at hne ⊢
        exact ⟨hne, LinkChain.head _ hne⟩
      · exact Or.inr ⟨hfc, LinkChain.tail _ _ hchain hne⟩
  · intro h
    rcases h with hj | ⟨hfc, hchain⟩
    · rw [hj]
      exact LinkChain.head _ hc
    · exact linkChain_extend f (LinkChain.tail _ _ (LinkChain.head _ hc) hfc) hchain

theorem descOf_trans (ps : List Process) {idx k j : Int}
    (h1 : DescOf ps idx k) (h2 : DescOf ps k j) : DescOf ps idx j := by
  induction h2 with
  | base j hchain => exact DescOf.step _ _ _ h1 hchain
  | step k' j hdesc hchain ih => exact DescOf.step _ _ _ ih hchain

theorem descOf_decomp (ps : List Process) (idx : Int) (j : Int) :
    DescOf ps idx j ↔
      InChain ps (childF ps idx) j ∨
      ∃ k, InChain ps (childF ps idx) k ∧ DescOf ps k j := by
  constructor
  · intro h
    induction h with
    | base j hchain => exact Or.inl hchain
    | step k' j hdesc hchain ih =>
      rcases ih with hch | ⟨k, hk, hdk⟩
      · exact Or.inr ⟨k', hch, DescOf.base _ _ hchain⟩
      · exact Or.inr ⟨k, hk, DescOf.step _ _ _ hdk hchain⟩
  · intro h
    rcases h with hch | ⟨k, hk, hdk⟩
    · exact DescOf.base _ _ hch
    · exact descOf_trans ps (DescOf.base _ _ hk) hdk

theorem linkEq_refl (ps : List Process) : linkEq ps ps :=
  ⟨rfl, fun _ _ => sameButPrint_refl _⟩

theorem linkEq_trans {ps qs rs : List Process} (h1 : linkEq ps qs) (h2 : linkEq qs rs) :
    linkEq ps rs := by
  refine ⟨h1.1.trans h2.1, fun k hk => ?_⟩
  obtain ⟨a1, a2, a3, a4, a5, a6, a7, a8, a9, a10⟩ := h1.2 k hk
  obtain ⟨b1, b2, b3, b4, b5, b6, b7, b8, b9, b10⟩ := h2.2 k (h1.1 ▸ hk)
  exact ⟨a1.trans b1, a2.trans b2, a3.trans b3, a4.trans b4, a5.trans b5,
    a6.trans b6, a7.trans b7, a8.trans b8, a9.trans b9, a10.trans b10⟩

theorem linkEq_setPrintB (qs : List Process) (i : Int) (b : Bool) :
    linkEq qs (setPrintB qs i b) := by
  refine ⟨(length_setPrintB qs i b).symm, fun k hk => ?_⟩
  by_cases hki : (k : Int) = i
  · have h0 : 0 ≤ i := by omega
    have htn : i.toNat = k := by omega
    unfold setPrintB setI
    rw [if_pos h0, htn, show qs.set k { getP qs i with print := b } = setN qs k _ from rfl,
      getN_setN_self qs k _ hk, getP_eq_getN qs i h0, htn]
    exact ⟨rfl, rfl, rfl, rfl, rfl, rfl, rfl, rfl, rfl, rfl⟩
  · rw [getN_setPrintB_ne qs i k b hki]
    exact sameButPrint_refl _

theorem sisterF_of_linkEq {ps qs : List Process} (h : linkEq ps qs) :
    sisterF qs = sisterF ps := by
  funext j
  exact (linkEq_getP ps qs h j).2.2.2.2.2.2.2.2.1.symm

theorem parentF_of_linkEq {ps qs : List Process} (h : linkEq ps qs) :
    parentF qs = parentF ps := by
  funext j
  exact (linkEq_getP ps qs h j).2.2.2.2.2.2.1.symm

theorem childF_of_linkEq {ps qs : List Process} (h : linkEq ps qs) :
    childF qs = childF ps := by
  funext j
  exact (linkEq_getP ps qs h j).2.2.2.2.2.2.2.1.symm

theorem getP_setPrintB_true_iff (qs : List Process) (i : Int)
    (hi : 0 ≤ i ∧ i.toNat < qs.length) (j : Int) :
    ((getP (setPrintB qs i true) j).print = true ↔
      ((getP qs j).print = true ∨ j = i)) := by
  by_cases hji : j = i
  · rw [hji]
    have hcast : ((i.toNat : Nat) : Int) = i := Int.toNat_of_nonneg hi.1
    rw [getP_eq_getN _ i hi.1, ← hcast]
    simp only [Int.toNat_natCast]
    rw [getN_setPrintB_self qs i.toNat true hi.2]
    simp
  · have hne : (getP (setPrintB qs i true) j) = getP qs j := by
      rcases lt_or_le j 0 with hj0 | hj0
      · rw [getP_default_oob _ j (Or.inl hj0), getP_default_oob qs j (Or.inl hj0)]
      · rcases lt_or_le j.toNat qs.length with hjl | hjl
        · rw [getP_eq_getN _ j hj0, getP_eq_getN qs j hj0]
          exact getN_setPrintB_ne qs i j.toNat true (by omega)
        · rw [getP_default_oob qs j (Or.inr hjl),
            getP_default_oob _ j (Or.inr (by rw [length_setPrintB]; exact hjl))]
    rw [hne]
    simp [hji]

theorem linkChain_start_ne (f : Int → Int) {c j : Int} (h : LinkChain f c j) : c ≠ -1 := by
  induction h with
  | head hne => exact hne
  | tail j hcj hne ih => exact ih

/-- A rank function witnessing that the child/sister links of the store
form a forest: both links point at valid positions of strictly smaller
rank, and every rank fits in the fuel budget of the embedding. -/
def RankOk (ps : List Process) (rank : Int → Nat) : Prop :=
  ∀ i : Nat, i < ps.length →
    ((getN ps i).child ≠ -1 →
      0 ≤ (getN ps i).child ∧ (getN ps i).child < (ps.length : Int) ∧
      rank ((getN ps i).child) < rank (i : Int)) ∧
    ((getN ps i).sister ≠ -1 →
      0 ≤ (getN ps i).sister ∧ (getN ps i).sister < (ps.length : Int) ∧
      rank ((getN ps i).sister) < rank (i : Int)) ∧
    2 * rank (i : Int) + 3 ≤ markFuel ps

instance (ps : List Process) (rank : Int → Nat) : Decidable (RankOk ps rank) := by
  unfold RankOk
  infer_instance

/-- A rank function witnessing that the parent links are acyclic: each
parent is a valid position of strictly smaller rank. -/
def PRankOk (ps : List Process) (prank : Int → Nat) : Prop :=
  ∀ i : Nat, i < ps.length →
    ((getN ps i).parent ≠ -1 →
      0 ≤ (getN ps i).parent ∧ (getN ps i).parent < (ps.length : Int) ∧
      prank ((getN ps i).parent) < prank (i : Int)) ∧
    prank (i : Int) + 1 ≤ markFuel ps

instance (ps : List Process) (prank : Int → Nat) : Decidable (PRankOk ps prank) := by
  unfold PRankOk
  infer_instance

theorem rankOk_at (ps : List Process) (rank : Int → Nat) (hr : RankOk ps rank)
    (idx : Int) (h0 : 0 ≤ idx) (hlt : idx < (ps.length : Int)) :
    (childF ps idx ≠ -1 →
      0 ≤ childF ps idx ∧ childF ps idx < (ps.length : Int) ∧
      rank (childF ps idx) < rank idx) ∧
    (sisterF ps idx ≠ -1 →
      0 ≤ sisterF ps idx ∧ sisterF ps idx < (ps.length : Int) ∧
      rank (sisterF ps idx) < rank idx) ∧
    2 * rank idx + 3 ≤ markFuel ps := by
  have htn : idx.toNat < ps.length := by omega
  have hcast : ((idx.toNat : Nat) : Int) = idx := Int.toNat_of_nonneg h0
  have := hr idx.toNat htn
  rw [hcast] at this
  unfold childF sisterF
  rw [getP_eq_getN ps idx h0, ← hcast]
  simp only [Int.toNat_natCast]
  rw [hcast]
  exact this

theorem markChildren_chain_spec (ps : List Process) (rank : Int → Nat)
    (hr : RankOk ps rank) :
    ∀ fuel : Nat,
      (∀ (qs : List Process) (idx : Int), linkEq ps qs →
        0 ≤ idx → idx < (ps.length : Int) → 2 * rank idx + 2 ≤ fuel →
        linkEq ps (markChildren qs fuel idx) ∧
        (∀ j : Int, ((getP (markChildren qs fuel idx) j).print = true ↔
          ((getP qs j).print = true ∨ j = idx ∨ DescOf ps idx j)))) ∧
      (∀ (qs : List Process) (c : Int), linkEq ps qs →
        (c = -1 ∨ (0 ≤ c ∧ c < (ps.length : Int) ∧ 2 * rank c + 3 ≤ fuel)) →
        linkEq ps (markChain qs fuel c) ∧
        (∀ j : Int, ((getP (markChain qs fuel c) j).print = true ↔
          ((getP qs j).print = true ∨ InChain ps c j ∨
            ∃ k, InChain ps c k ∧ DescOf ps k j)))) := by
  intro fuel
  induction fuel with
  | zero =>
    constructor
    · intro qs idx _ _ _ hfuel
      omega
    · intro qs c hq hok
      have hc : c = -1 := by
        rcases hok with h | h
        · exact h
        · omega
      refine ⟨hq, fun j => ?_⟩
      rw [markChain]
      constructor
      · exact Or.inl
      · intro h
        rcases h with h | h | ⟨k, hk, _⟩
        · exact h
        · exact absurd (hc ▸ h) (linkChain_neg1 (sisterF ps) j)
        · exact absurd (hc ▸ hk) (linkChain_neg1 (sisterF ps) k)
  | succ f ih =>
    constructor
    · intro qs idx hq h0 hlt hfuel
      rw [markChildren]
      have hq1 : linkEq ps (setPrintB qs idx true) :=
        linkEq_trans hq (linkEq_setPrintB qs idx true)
      have hc0 : (getP (setPrintB qs idx true) idx).child = childF ps idx :=
        ((linkEq_getP ps _ hq1 idx).2.2.2.2.2.2.2.1).symm
      have hra := rankOk_at ps rank hr idx h0 hlt
      have hok : childF ps idx = -1 ∨
          (0 ≤ childF ps idx ∧ childF ps idx < (ps.length : Int) ∧
            2 * rank (childF ps idx) + 3 ≤ f) := by
        by_cases hcne : childF ps idx = -1
        · exact Or.inl hcne
        · obtain ⟨hge, hltc, hrk⟩ := hra.1 hcne
          exact Or.inr ⟨hge, hltc, by omega⟩
      obtain ⟨hlq, hiff⟩ := ih.2 (setPrintB qs idx true) (childF ps idx) hq1 hok
      rw [hc0]
      refine ⟨hlq, fun j => ?_⟩
      have hsp := getP_setPrintB_true_iff qs idx
        ⟨h0, by have := hq.1; omega⟩ j
      rw [hiff j, hsp, descOf_decomp ps idx j]
      exact or_assoc
    · intro qs c hq hok
      rcases hok with hc | ⟨h0, hlt, hfuel⟩
      · refine ⟨by rw [markChain, if_pos hc]; exact hq, fun j => ?_⟩
        rw [markChain, if_pos hc]
        constructor
        · exact Or.inl
        · intro h
          rcases h with h | h | ⟨k, hk, _⟩
          · exact h
          · exact absurd (hc ▸ h) (linkChain_neg1 (sisterF ps) j)
          · exact absurd (hc ▸ hk) (linkChain_neg1 (sisterF ps) k)
      · have hc : c ≠ -1 := by omega
        rw [markChain, if_neg hc]
        dsimp only
        obtain ⟨hq2, hiff2⟩ := ih.1 qs c hq h0 hlt (by omega)
        have hs0 : (getP (markChildren qs f c) c).sister = sisterF ps c :=
          ((linkEq_getP ps _ hq2 c).2.2.2.2.2.2.2.2.1).symm
        have hra := rankOk_at ps rank hr c h0 hlt
        have hok2 : sisterF ps c = -1 ∨
            (0 ≤ sisterF ps c ∧ sisterF ps c < (ps.length : Int) ∧
              2 * rank (sisterF ps c) + 3 ≤ f) := by
          by_cases hsne : sisterF ps c = -1
          · exact Or.inl hsne
          · obtain ⟨hge, hlts, hrk⟩ := hra.2.1 hsne
            exact Or.inr ⟨hge, hlts, by omega⟩
        obtain ⟨hlq, hiff3⟩ := ih.2 (markChildren qs f c) (sisterF ps c) hq2 hok2
        rw [hs0]
        refine ⟨hlq, fun j => ?_⟩
        rw [hiff3 j, hiff2 j]
        constructor
        · intro h
          rcases h with (hp | hjc | hdesc) | hch | ⟨k, hk, hdk⟩
          · exact Or.inl hp
          · right
            left
            rw [hjc]
            exact LinkChain.head _ hc
          · exact Or.inr (Or.inr ⟨c, LinkChain.head _ hc, hdesc⟩)
          · right
            left
            exact linkChain_extend _ (LinkChain.tail _ _ (LinkChain.head _ hc)
              (linkChain_start_ne _ hch)) hch
          · right
            right
            exact ⟨k, linkChain_extend _ (LinkChain.tail _ _ (LinkChain.head _ hc)
              (linkChain_start_ne _ hk)) hk, hdk⟩
        · intro h
          rcases h with hp | hch | ⟨k, hk, hdk⟩
          · exact Or.inl (Or.inl hp)
          · rcases (linkChain_cons (sisterF ps) c hc j).mp hch with hjc | ⟨hfne, hchs⟩
            · exact Or.inl (Or.inr (Or.inl hjc))
            · exact Or.inr (Or.inl hchs)
          · rcases (linkChain_cons (sisterF ps) c hc k).mp hk with hkc | ⟨hfne, hchs⟩
            · exact Or.inl (Or.inr (Or.inr (hkc ▸ hdk)))
            · exact Or.inr (Or.inr ⟨k, hchs, hdk⟩)

theorem pRankOk_at (ps : List Process) (prank : Int → Nat) (hp : PRankOk ps prank)
    (p : Int) (h0 : 0 ≤ p) (hlt : p < (ps.length : Int)) :
    (parentF ps p ≠ -1 →
      0 ≤ parentF ps p ∧ parentF ps p < (ps.length : Int) ∧
      prank (parentF ps p) < prank p) ∧
    prank p + 1 ≤ markFuel ps := by
  have htn : p.toNat < ps.length := by omega
  have hcast : ((p.toNat : Nat) : Int) = p := Int.toNat_of_nonneg h0
  have := hp p.toNat htn
  rw [hcast] at this
  unfold parentF
  rw [getP_eq_getN ps p h0, ← hcast]
  simp only [Int.toNat_natCast]
  rw [hcast]
  exact this

theorem markParents_spec (ps : List Process) (prank : Int → Nat) (hp : PRankOk ps prank) :
    ∀ fuel : Nat, ∀ (qs : List Process) (p : Int), linkEq ps qs →
      (p = -1 ∨ (0 ≤ p ∧ p < (ps.length : Int) ∧ prank p + 1 ≤ fuel)) →
      linkEq ps (markParents qs fuel p) ∧
      (∀ j : Int, ((getP (markParents qs fuel p) j).print = true ↔
        ((getP qs j).print = true ∨ PUp ps p j))) := by
  intro fuel
  induction fuel with
  | zero =>
    intro qs p hq hok
    have hpc : p = -1 := by
      rcases hok with h | h
      · exact h
      · omega
    refine ⟨hq, fun j => ?_⟩
    rw [markParents]
    constructor
    · exact Or.inl
    · intro h
      rcases h with h | h
      · exact h
      · exact absurd (hpc ▸ h) (linkChain_neg1 (parentF ps) j)
  | succ f ih =>
    intro qs p hq hok
    rcases hok with hpc | ⟨h0, hlt, hfuel⟩
    · refine ⟨by rw [markParents, if_pos hpc]; exact hq, fun j => ?_⟩
      rw [markParents, if_pos hpc]
      constructor
      · exact Or.inl
      · intro h
        rcases h with h | h
        · exact h
        · exact absurd (hpc ▸ h) (linkChain_neg1 (parentF ps) j)
    · have hpc : p ≠ -1 := by omega
      rw [markParents, if_neg hpc]
      dsimp only
      have hq1 : linkEq ps (setPrintB qs p true) :=
        linkEq_trans hq (linkEq_setPrintB qs p true)
      have hpar : (getP (setPrintB qs p true) p).parent = parentF ps p :=
        ((linkEq_getP ps _ hq1 p).2.2.2.2.2.2.1).symm
      have hra := pRankOk_at ps prank hp p h0 hlt
      have hok2 : parentF ps p = -1 ∨
          (0 ≤ parentF ps p ∧ parentF ps p < (ps.length : Int) ∧
            prank (parentF ps p) + 1 ≤ f) := by
        by_cases hne : parentF ps p = -1
        · exact Or.inl hne
        · obtain ⟨hge, hltp, hrk⟩ := hra.1 hne
          exact Or.inr ⟨hge, hltp, by omega⟩
      obtain ⟨hlq, hiff⟩ := ih (setPrintB qs p true) (parentF ps p) hq1 hok2
      rw [hpar]
      refine ⟨hlq, fun j => ?_⟩
      rw [hiff j, getP_setPrintB_true_iff qs p ⟨h0, by have := hq.1; omega⟩ j]
      constructor
      · intro h
        rcases h with (hpj | hjp) | hup
        · exact Or.inl hpj
        · right
          rw [hjp]
          exact LinkChain.head _ hpc
        · right
          exact linkChain_extend _ (LinkChain.tail _ _ (LinkChain.head _ hpc)
            (linkChain_start_ne _ hup)) hup
      · intro h
        rcases h with hpj | hup
        · exact Or.inl (Or.inl hpj)
        · rcases (linkChain_cons (parentF ps) p hpc j).mp hup with hjp | ⟨hne, hupp⟩
          · exact Or.inl (Or.inr hjp)
          · exact Or.inr hupp

theorem matchesCrit_linkEq (cfg : Cfg) {ps qs : List Process} (h : linkEq ps qs)
    (i : Nat) (hi : i < ps.length) :
    matchesCrit cfg (getN qs i) = matchesCrit cfg (getN ps i) := by
  obtain ⟨_, hpid, _, _, hname, hcmd, _, _, _, _⟩ := h.2 i hi
  unfold matchesCrit
  rw [← hpid, ← hname, ← hcmd]

theorem markFuel_linkEq {ps qs : List Process} (h : linkEq ps qs) :
    markFuel qs = markFuel ps := by
  unfold markFuel
  rw [h.1]

theorem markStep_not_showAll (cfg : Cfg) (hshow : cfg.showAll = false)
    (qs : List Process) (i : Nat) :
    markStep cfg qs i =
      if matchesCrit cfg (getN qs i) = true then
        markChildren (markParents qs (markFuel qs) ((getN qs i).parent))
          (markFuel (markParents qs (markFuel qs) ((getN qs i).parent))) (i : Int)
      else qs := by
  unfold markStep
  rw [hshow]
  rfl

theorem foldl_markStep_spec (cfg : Cfg) (hshow : cfg.showAll = false)
    (ps : List Process) (rank prank : Int → Nat)
    (hr : RankOk ps rank) (hpk : PRankOk ps prank) :
    ∀ (l : List Nat) (qs : List Process), linkEq ps qs → (∀ x ∈ l, x < ps.length) →
      linkEq ps (l.foldl (markStep cfg) qs) ∧
      (∀ j : Int, ((getP (l.foldl (markStep cfg) qs) j).print = true ↔
        ((getP qs j).print = true ∨ ∃ m : Nat, m ∈ l ∧ matchesCrit cfg (getN ps m) = true ∧
          (j = (m : Int) ∨ PUp ps (parentF ps (m : Int)) j ∨ DescOf ps (m : Int) j)))) := by
  intro l
  induction l with
  | nil =>
    intro qs hq _
    refine ⟨hq, fun j => ?_⟩
    simp only [List.foldl_nil]
    constructor
    · exact Or.inl
    · intro h
      rcases h with h | ⟨m, hm, _⟩
      · exact h
      · exact absurd hm (List.not_mem_nil m)
  | cons i t ih =>
    intro qs hq hbound
    have hi : i < ps.length := hbound i (List.mem_cons_self i t)
    simp only [List.foldl_cons]
    rw [markStep_not_showAll cfg hshow qs i, matchesCrit_linkEq cfg hq i hi]
    by_cases hm : matchesCrit cfg (getN ps i) = true
    · rw [if_pos hm]
      have hpar : (getN qs i).parent = parentF ps (i : Int) := by
        rw [← getP_natCast qs i]
        exact ((linkEq_getP ps qs hq (i : Int)).2.2.2.2.2.2.1).symm
      have h0 : (0 : Int) ≤ (i : Int) := by omega
      have hlt : (i : Int) < (ps.length : Int) := by exact_mod_cast hi
      have hokp : parentF ps (i : Int) = -1 ∨
          (0 ≤ parentF ps (i : Int) ∧ parentF ps (i : Int) < (ps.length : Int) ∧
            prank (parentF ps (i : Int)) + 1 ≤ markFuel qs) := by
        by_cases hne : parentF ps (i : Int) = -1
        · exact Or.inl hne
        · obtain ⟨hge, hltp, _⟩ := (pRankOk_at ps prank hpk (i : Int) h0 hlt).1 hne
          refine Or.inr ⟨hge, hltp, ?_⟩
          rw [markFuel_linkEq hq]
          exact (pRankOk_at ps prank hpk (parentF ps (i : Int)) hge hltp).2
      obtain ⟨hq1, hiff1⟩ :=
        markParents_spec ps prank hpk (markFuel qs) qs (parentF ps (i : Int)) hq hokp
      have hfuel2 : 2 * rank (i : Int) + 2 ≤
          markFuel (markParents qs (markFuel qs) (parentF ps (i : Int))) := by
        rw [markFuel_linkEq hq1]
        have := (rankOk_at ps rank hr (i : Int) h0 hlt).2.2
        omega
      obtain ⟨hq2, hiff2⟩ :=
        (markChildren_chain_spec ps rank hr
          (markFuel (markParents qs (markFuel qs) (parentF ps (i : Int))))).1
          (markParents qs (markFuel qs) (parentF ps (i : Int))) (i : Int) hq1 h0 hlt hfuel2
      rw [hpar]
      obtain ⟨ihq, ihiff⟩ := ih _ hq2 (fun x hx => hbound x (List.mem_cons_of_mem i hx))
      refine ⟨ihq, fun j => ?_⟩
      rw [ihiff j, hiff2 j, hiff1 j]
      constructor
      · intro h
        rcases h with ((hpj | hup) | hji | hdesc) | ⟨m, hmt, hmm, hrel⟩
        · exact Or.inl hpj
        · exact Or.inr ⟨i, List.mem_cons_self i t, hm, Or.inr (Or.inl hup)⟩
        · exact Or.inr ⟨i, List.mem_cons_self i t, hm, Or.inl hji⟩
        · exact Or.inr ⟨i, List.mem_cons_self i t, hm, Or.inr (Or.inr hdesc)⟩
        · exact Or.inr ⟨m, List.mem_cons_of_mem i hmt, hmm, hrel⟩
      · intro h
        rcases h with hpj | ⟨m, hmem, hmm, hrel⟩
        · exact Or.inl (Or.inl (Or.inl hpj))
        · rcases List.mem_cons.mp hmem with hmi | hmt
          · rcases hrel with hji | hup | hdesc
            · exact Or.inl (Or.inr (Or.inl (by rw [hji, hmi])))
            · exact Or.inl (Or.inl (Or.inr (by rw [← hmi]; exact hup)))
            · exact Or.inl (Or.inr (Or.inr (by rw [← hmi]; exact hdesc)))
          · exact Or.inr ⟨m, hmt, hmm, hrel⟩
    · rw [if_neg hm]
      obtain ⟨ihq, ihiff⟩ := ih qs hq (fun x hx => hbound x (List.mem_cons_of_mem i hx))
      refine ⟨ihq, fun j => ?_⟩
      rw [ihiff j]
      constructor
      · intro h
        rcases h with hpj | ⟨m, hmt, hmm, hrel⟩
        · exact Or.inl hpj
        · exact Or.inr ⟨m, List.mem_cons_of_mem i hmt, hmm, hrel⟩
      · intro h
        rcases h with hpj | ⟨m, hmem, hmm, hrel⟩
        · exact Or.inl hpj
        · rcases List.mem_cons.mp hmem with hmi | hmt
          · exact absurd (hmi ▸ hmm) (by rw [hmi] at hmm; exact absurd hmm hm)
          · exact Or.inr ⟨m, hmt, hmm, hrel⟩

/-- C6: with show-all off, `markProcs` sets the `Print` flag on exactly the
records that match an active criterion, their ancestors along `parentIndex`
links, and their descendants through the child/sister chains: a record is
selected after `markProcs` iff some record `m` matches a criterion and the
record is `m` itself, lies on the ancestor walk from `m`'s parent, or is a
descendant of `m`. -/
theorem C6_selection_propagation (cfg : Cfg) (ps : List Process)
    (hshow : cfg.showAll = false)
    (rank prank : Int → Nat) (hr : RankOk ps rank) (hpk : PRankOk ps prank)
    (hinit : ∀ i, i < ps.length → (getN ps i).print = false) :
    ∀ j : Nat, j < ps.length →
      ((getN (markProcs cfg ps) j).print = true ↔
        ∃ m : Nat, m < ps.length ∧ matchesCrit cfg (getN ps m) = true ∧
          ((j : Int) = (m : Int) ∨ PUp ps (parentF ps (m : Int)) (j : Int) ∨
            DescOf ps (m : Int) (j : Int))) := by
  intro j hj
  unfold markProcs
  obtain ⟨_, hiff⟩ := foldl_markStep_spec cfg hshow ps rank prank hr hpk
    (List.range ps.length) ps (linkEq_refl ps) (fun x hx => List.mem_range.mp hx)
  rw [← getP_natCast (List.foldl (markStep cfg) ps (List.range ps.length)) j,
    hiff (j : Int), getP_natCast ps j]
  have hpf : (getN ps j).print = false := hinit j hj
  rw [hpf]
  simp only [Bool.false_eq_true, false_or, List.mem_range]

/-- The substring criterion configuration used by the marking witness. -/
def cfgMark : Cfg := { sOption := true, str := "vim", myPid := 99 }

/-- A root with two child subtrees; only record 1 (command `vim file`)
matches the substring criterion. -/
def psMark : List Process :=
  [ { pid := 1, ppid := 0, name := "root", cmd := "init", child := 1 },
    { pid := 2, ppid := 1, name := "u", cmd := "vim file", parent := 0, child := 3, sister := 2 },
    { pid := 3, ppid := 1, name := "u", cmd := "sh", parent := 0 },
    { pid := 4, ppid := 2, name := "u", cmd := "worker", parent := 1 } ]

/-- A forest rank for `psMark`. -/
def rankMark : Int → Nat := fun i => if i = 0 then 3 else if i = 1 then 2 else 1

/-- A parent rank for `psMark`. -/
def prankMark : Int → Nat := fun i => if i = 0 then 0 else if i = 1 then 1 else 2

theorem C6_selection_propagation_witness :
    cfgMark.showAll = false ∧ RankOk psMark rankMark ∧ PRankOk psMark prankMark ∧
    (∀ i, i < psMark.length → (getN psMark i).print = false) ∧
    ((getN (markProcs cfgMark psMark) 3).print = true ↔
      ∃ m : Nat, m < psMark.length ∧ matchesCrit cfgMark (getN psMark m) = true ∧
        ((3 : Int) = (m : Int) ∨ PUp psMark (parentF psMark (m : Int)) (3 : Int) ∨
          DescOf psMark (m : Int) (3 : Int))) :=
  ⟨rfl, by decide, by decide, by decide,
    C6_selection_propagation cfgMark psMark rfl rankMark prankMark (by decide) (by decide)
      (by decide) 3 (by decide)⟩
